import Mathlib

/-!
# DistributedFileSystem: gossip membership, chunked file store, wire formats

A shallow embedding of the Go sources

* `gossip/gossip.go`   (membership manager),
* `server/service.go`  (chunked file store),
* `cmd/main.go`        (the replication and gossip message handlers),

together with models of the Go standard-library functions they call
(`strings.SplitN`, `strings.Trim`, `strings.Fields`, `strconv.Atoi`,
`fmt.Sprintf`, `filepath.Join`, `base64.StdEncoding`).

Conventions.

* A Go `string` is a list of Unicode code points (`GoString`); every string the
  program handles is assumed to be valid UTF-8.
* A Go `[]byte` is a list of bytes (`Bytes`); `nil` and the empty slice coincide.
* A Go `int` is an `Int`; the 64-bit range is made explicit where it matters
  (`strconv.Atoi`).
* A Go `map` whose keys are iterated (`Manager.Nodes`) is an association list in
  insertion order; maps that are only indexed are functions to `Option`.
* `time.Now()` is an explicit argument of every operation that reads the clock.
* The disk is a map from cleaned path to contents, together with an oracle that
  says which writes succeed.
-/

namespace DFS

/-! ## Basic types -/

/-- Go `string`: a sequence of code points. -/
abbrev GoString := List Char

/-- One octet. -/
abbrev Byte := Fin 256

/-- Go `[]byte`. -/
abbrev Bytes := List Byte

/-- An instant returned by `time.Now()`. -/
abbrev Time := Int

/-! ## `strings` -/

/-- Cut `s` around the first occurrence of `sep` (`strings.Index` followed by
the two slices `s[:m]` and `s[m+1:]`); `none` when `sep` does not occur. -/
def cut (sep : Char) : GoString → Option (GoString × GoString)
  | [] => none
  | c :: cs =>
    if c = sep then some ([], cs)
    else
      match cut sep cs with
      | none => none
      | some (a, b) => some (c :: a, b)

/-- The function `strings.SplitN(s, sep, n)` for a one-character separator and
`n ≥ 0`: at most `n` substrings, the last one being the unsplit remainder. -/
def SplitN (sep : Char) : Nat → GoString → List GoString
  | 0, _ => []
  | 1, s => [s]
  | n + 2, s =>
    match cut sep s with
    | none => [s]
    | some (a, b) => a :: SplitN sep (n + 1) b

/-- The function `strings.TrimLeft(s, cutset)`. -/
def TrimLeft (cutset : List Char) (s : GoString) : GoString :=
  s.dropWhile (fun c => decide (c ∈ cutset))

/-- The function `strings.TrimRight(s, cutset)`. -/
def TrimRight (cutset : List Char) (s : GoString) : GoString :=
  (s.reverse.dropWhile (fun c => decide (c ∈ cutset))).reverse

/-- The function `strings.Trim(s, cutset)`: all leading and trailing code
points contained in `cutset` are removed. -/
def Trim (cutset : List Char) (s : GoString) : GoString :=
  TrimLeft cutset (TrimRight cutset s)

/-- The predicate `unicode.IsSpace`. -/
def isSpace (c : Char) : Bool :=
  let n := c.toNat
  decide (n = 9 ∨ n = 10 ∨ n = 11 ∨ n = 12 ∨ n = 13 ∨ n = 32 ∨ n = 0x85 ∨ n = 0xA0
    ∨ n = 0x1680 ∨ (0x2000 ≤ n ∧ n ≤ 0x200A) ∨ n = 0x2028 ∨ n = 0x2029
    ∨ n = 0x202F ∨ n = 0x205F ∨ n = 0x3000)

/-- Scanner of `strings.Fields`: `cur` is the field being read. -/
def fieldsGo : GoString → GoString → List GoString
  | cur, [] => if cur = [] then [] else [cur]
  | cur, c :: cs =>
    if isSpace c then
      (if cur = [] then fieldsGo [] cs else cur :: fieldsGo [] cs)
    else fieldsGo (cur ++ [c]) cs

/-- The function `strings.Fields(s)`: the maximal runs of non-space code
points, in order. -/
def Fields (s : GoString) : List GoString := fieldsGo [] s

/-- The function `strings.Join(elems, sep)`. -/
def strJoin (sep : GoString) : List GoString → GoString
  | [] => []
  | [a] => a
  | a :: b :: rest => a ++ sep ++ strJoin sep (b :: rest)

/-! ## `strconv` and `fmt` -/

/-- The decimal digit `d` as a character. -/
def digitChar (d : Nat) : Char := Char.ofNat (48 + d)

/-- Decimal digits of `n`, most significant first, pushed in front of `acc`. -/
def digitsAux : Nat → Nat → GoString → GoString
  | 0, _, acc => acc
  | f + 1, n, acc =>
    if n < 10 then digitChar n :: acc
    else digitsAux f (n / 10) (digitChar (n % 10) :: acc)

/-- Decimal rendering of a natural number. -/
def formatNat (n : Nat) : GoString := digitsAux (n + 1) n []

/-- The verb `%d` of `fmt.Sprintf` applied to an `int`. -/
def itoa (i : Int) : GoString :=
  if i < 0 then '-' :: formatNat i.natAbs else formatNat i.natAbs

/-- Whether `c` is one of `0`..`9`. -/
def isDigit (c : Char) : Bool := decide (48 ≤ c.toNat ∧ c.toNat ≤ 57)

/-- Read decimal digits, continuing from the value `acc`; `none` on a
character that is not a digit. -/
def parseFrom : Nat → GoString → Option Nat
  | acc, [] => some acc
  | acc, c :: cs => if isDigit c then parseFrom (acc * 10 + (c.toNat - 48)) cs else none

/-- A non-empty run of decimal digits. -/
def parseDigits (s : GoString) : Option Nat :=
  if s = [] then none else parseFrom 0 s

/-- The function `strconv.Atoi` on a 64-bit platform: an optional sign, at
least one decimal digit, and a value within the range of `int`. `none` stands
for a non-nil error. -/
def Atoi (s : GoString) : Option Int :=
  match s with
  | [] => none
  | c :: cs =>
    if c = '-' then
      match parseDigits cs with
      | some n => if n ≤ 2 ^ 63 then some (-(n : Int)) else none
      | none => none
    else if c = '+' then
      match parseDigits cs with
      | some n => if n < 2 ^ 63 then some (n : Int) else none
      | none => none
    else
      match parseDigits (c :: cs) with
      | some n => if n < 2 ^ 63 then some (n : Int) else none
      | none => none

/-- The verb `%v` of `fmt.Sprintf` applied to a `[]string`: the elements
separated by one space, inside square brackets. -/
def formatList (l : List GoString) : GoString :=
  '[' :: (strJoin [Char.ofNat 32] l ++ [']'])

/-! ## `gossip/gossip.go` -/

/-- A cluster member (`gossip.Node`). -/
structure Node where
  Address : GoString
  Healthy : Bool
  LastHeartbeat : Time
  FileList : List GoString
  deriving DecidableEq

/-- The membership manager (`gossip.Manager`); the mutex is not modelled, every
operation is atomic. -/
structure Manager where
  Nodes : List (GoString × Node)
  self : Node
  deriving DecidableEq

/-- Map index `gm.Nodes[address]`. -/
def lookup (address : GoString) : List (GoString × Node) → Option Node
  | [] => none
  | p :: rest => if p.1 = address then some p.2 else lookup address rest

/-- The constructor `NewManager(selfAddress)`. -/
def NewManager (selfAddress : GoString) (now : Time) : Manager :=
  { Nodes := [],
    self := { Address := selfAddress, Healthy := true, LastHeartbeat := now, FileList := [] } }

/-- The method `Manager.AddNode`. -/
def AddNode (gm : Manager) (address : GoString) (now : Time) : Manager :=
  if lookup address gm.Nodes = none ∧ address ≠ gm.self.Address then
    { gm with Nodes := gm.Nodes ++
        [(address, { Address := address, Healthy := true, LastHeartbeat := now, FileList := [] })] }
  else gm

/-- The method `Manager.UpdateNodeHeartbeat`. -/
def UpdateNodeHeartbeat (gm : Manager) (address : GoString) (now : Time) : Manager :=
  match lookup address gm.Nodes with
  | some _ =>
    { gm with Nodes := gm.Nodes.map (fun p =>
        (p.1, if p.1 = address then { p.2 with LastHeartbeat := now, Healthy := true } else p.2)) }
  | none => gm

/-- The method `Manager.SetNodeUnhealthy`. -/
def SetNodeUnhealthy (gm : Manager) (address : GoString) : Manager :=
  match lookup address gm.Nodes with
  | some _ =>
    { gm with Nodes := gm.Nodes.map (fun p =>
        (p.1, if p.1 = address then { p.2 with Healthy := false } else p.2)) }
  | none => gm

/-- The method `Manager.GetState`: a copy of the table. -/
def GetState (gm : Manager) : List (GoString × Node) := gm.Nodes

/-- The method `Manager.GetNodes`: the keys of the table. -/
def GetNodes (gm : Manager) : List GoString := gm.Nodes.map Prod.fst

/-- The method `Manager.SelfAddress`. -/
def SelfAddress (gm : Manager) : GoString := gm.self.Address

/-- The list of healthy peers collected at the start of a gossip round. -/
def healthyNodes (gm : Manager) : List GoString :=
  (gm.Nodes.filter (fun p => p.2.Healthy)).map Prod.fst

/-- The message of a gossip round:
`fmt.Sprintf("GOSSIP|%s|%d|%v", self, unix, nodeList)`. -/
def gossipMessage (self : GoString) (unix : Int) (nodeList : List GoString) : GoString :=
  ['G', 'O', 'S', 'S', 'I', 'P', '|'] ++ self ++ ['|'] ++ itoa unix ++ ['|'] ++ formatList nodeList

/-- One tick of `Manager.Gossip`: the peer chosen (by the random number `r`)
and the message sent to it, or `none` when no peer is healthy. -/
def GossipRound (gm : Manager) (unix : Int) (r : Nat) : Option (GoString × GoString) :=
  let nodeList := healthyNodes gm
  if 0 < nodeList.length then
    some (nodeList.getD (r % nodeList.length) [], gossipMessage gm.self.Address unix nodeList)
  else none

/-! ## `cmd/main.go`: the gossip handler -/

/-- The parsing done by the gossip handler: `none` when the message has fewer
than four fields, otherwise the sender address `parts[1]` and the peer
addresses obtained from `parts[3]`. -/
def parseGossip (message : GoString) : Option (GoString × List GoString) :=
  let parts := SplitN '|' 4 message
  if parts.length < 4 then none
  else
    let senderAddress := parts.getD 1 []
    let peerListStr := Trim ['[', ']'] (parts.getD 3 [])
    some (senderAddress, Fields peerListStr)

/-- The loop over `peerAddresses` in the gossip handler; `clock k` is the
reading of `time.Now()` available to the `k`-th iteration. -/
def addPeers (clock : Nat → Time) : Nat → Manager → List GoString → Manager
  | _, gm, [] => gm
  | k, gm, addr :: rest =>
    if addr ≠ [] ∧ addr ≠ SelfAddress gm then
      addPeers clock (k + 1) (AddNode gm addr (clock k)) rest
    else addPeers clock (k + 1) gm rest

/-- The closure assigned to `tcpconn.GossipHandler`. `tAdd` and `tBeat` are the
clock readings of `AddNode(sender)` and of `UpdateNodeHeartbeat(sender)`;
`clock` serves the loop over the advertised peers. -/
def GossipHandler (gm : Manager) (message : GoString) (tAdd tBeat : Time)
    (clock : Nat → Time) : Manager :=
  match parseGossip message with
  | none => gm
  | some (senderAddress, peerAddresses) =>
    let gm1 := AddNode gm senderAddress tAdd
    let gm2 := UpdateNodeHeartbeat gm1 senderAddress tBeat
    addPeers clock 0 gm2 peerAddresses

/-! ## `path/filepath` -/

/-- Scanner splitting a path at every separator; `cur` is the component being
read. Empty components are kept. -/
def splitGo (sep : Char) : GoString → GoString → List GoString
  | cur, [] => [cur]
  | cur, c :: cs => if c = sep then cur :: splitGo sep [] cs else splitGo sep (cur ++ [c]) cs

/-- One step of `filepath.Clean` on the stack `out` of components written so
far (top first): empty and `.` components are skipped, `..` removes the
previous component when there is one that is not itself `..`, is dropped at
the root, and is kept otherwise. -/
def cleanStep (rooted : Bool) (out : List GoString) (c : GoString) : List GoString :=
  if c = [] ∨ c = ['.'] then out
  else if c = ['.', '.'] then
    match out with
    | [] => if rooted then out else c :: out
    | t :: rest => if t = ['.', '.'] then c :: out else rest
  else c :: out

/-- The function `filepath.Clean` on a Unix path. -/
def Clean (path : GoString) : GoString :=
  if path = [] then ['.']
  else
    let rooted := decide (path.head? = some '/')
    let out := ((splitGo '/' [] path).foldl (cleanStep rooted) []).reverse
    if rooted then '/' :: strJoin ['/'] out
    else if out = [] then ['.'] else strJoin ['/'] out

/-- The function `filepath.Join`: leading empty elements are ignored, the rest
is joined with `/` and cleaned. -/
def Join (elem : List GoString) : GoString :=
  match elem.dropWhile (fun e => decide (e = [])) with
  | [] => []
  | e :: es => Clean (strJoin ['/'] (e :: es))

/-! ## `encoding/base64` -/

/-- The alphabet of `base64.StdEncoding`. -/
def encodeStd (i : Nat) : Char :=
  if i < 26 then Char.ofNat (65 + i)
  else if i < 52 then Char.ofNat (97 + (i - 26))
  else if i < 62 then Char.ofNat (48 + (i - 52))
  else if i = 62 then '+' else '/'

/-- The decode map of `base64.StdEncoding`; `none` for a character outside
the alphabet. -/
def decodeStd (c : Char) : Option Nat :=
  let n := c.toNat
  if 65 ≤ n ∧ n ≤ 90 then some (n - 65)
  else if 97 ≤ n ∧ n ≤ 122 then some (n - 97 + 26)
  else if 48 ≤ n ∧ n ≤ 57 then some (n - 48 + 52)
  else if n = 43 then some 62
  else if n = 47 then some 63
  else none

/-- The low eight bits of `n` as a byte. -/
def toByte (n : Nat) : Byte := ⟨n % 256, Nat.mod_lt n (by decide)⟩

/-- The function `base64.StdEncoding.EncodeToString`. -/
def EncodeToString : Bytes → GoString
  | [] => []
  | [a] => [encodeStd (a.val / 4), encodeStd (a.val % 4 * 16), '=', '=']
  | [a, b] =>
    [encodeStd (a.val / 4), encodeStd (a.val % 4 * 16 + b.val / 16),
      encodeStd (b.val % 16 * 4), '=']
  | a :: b :: c :: rest =>
    encodeStd (a.val / 4) :: encodeStd (a.val % 4 * 16 + b.val / 16) ::
      encodeStd (b.val % 16 * 4 + c.val / 64) :: encodeStd (c.val % 64) :: EncodeToString rest

/-- Decoding of an input from which line breaks have been removed, four
characters at a time: a full quantum gives three bytes; a final quantum padded
with one or two `=` gives two or one; anything else is corrupt input
(`none`). Left-over bits of a padded quantum are not checked (the standard
encoding is not strict). -/
def decodeQuanta : GoString → Option Bytes
  | [] => some []
  | a :: b :: c :: d :: rest =>
    match decodeStd a, decodeStd b with
    | some x, some y =>
      match decodeStd c with
      | some z =>
        match decodeStd d with
        | some w =>
          let v := x * 262144 + y * 4096 + z * 64 + w
          match decodeQuanta rest with
          | some t => some (toByte (v / 65536) :: toByte (v / 256) :: toByte v :: t)
          | none => none
        | none =>
          if d = '=' ∧ rest = [] then
            let v := x * 262144 + y * 4096 + z * 64
            some [toByte (v / 65536), toByte (v / 256)]
          else none
      | none =>
        if c = '=' ∧ d = '=' ∧ rest = [] then
          let v := x * 262144 + y * 4096
          some [toByte (v / 65536)]
        else none
    | _, _ => none
  | _ => none

/-- The function `base64.StdEncoding.DecodeString`; carriage returns and line
feeds are ignored wherever they stand. `none` stands for a non-nil error. -/
def DecodeString (s : GoString) : Option Bytes :=
  decodeQuanta (s.filter (fun c => decide (c ≠ Char.ofNat 10 ∧ c ≠ Char.ofNat 13)))

/-! ## `server/service.go` -/

/-- The chunk size shared by writer and reader. -/
def CHUNK_SIZE : Nat := 1024

/-- Metadata of a chunked file (`server.FileMeta`). -/
structure FileMeta where
  IsChunked : Bool
  ChunkCount : Int
  deriving DecidableEq

/-- A Go `error`: one returned by the operating system, or one made by
`errors.New`. -/
inductive GoError where
  | os (op : String) (path : GoString)
  | new (text : String)
  deriving DecidableEq

/-- The disk: the object stored at each path, which paths `os.WriteFile`
can write, and whether `os.MkdirAll` succeeds. -/
structure Disk where
  objects : GoString → Option Bytes
  writable : GoString → Bool
  mkdirOk : Bool

/-- The file store (`server.FileStore`) together with the disk it owns. The
lock is not modelled; the pointer to the membership manager is passed to the
operations that use it. -/
structure FileStore where
  files : GoString → Option Bytes
  metadata : GoString → Option FileMeta
  disk : Disk

/-- The constructor `NewFileStore`, on a given disk. -/
def NewFileStore (disk : Disk) : FileStore :=
  { files := fun _ => none, metadata := fun _ => none, disk := disk }

/-- Map assignment `m[k] = v`. -/
def mapSet {β : Type} (m : GoString → Option β) (k : GoString) (v : β) : GoString → Option β :=
  fun x => if x = k then some v else m x

/-- The function `os.WriteFile`; a failed write leaves the disk as it was. -/
def WriteFile (d : Disk) (path : GoString) (data : Bytes) : Except GoError Disk :=
  if d.writable path then .ok { d with objects := mapSet d.objects path data }
  else .error (.os "write" path)

/-- The function `os.ReadFile`; `none` stands for a non-nil error. -/
def ReadFile (d : Disk) (path : GoString) : Option Bytes := d.objects path

/-- The function `ensureDir` (`os.MkdirAll`). -/
def ensureDir (d : Disk) (path : GoString) : Option GoError :=
  if d.mkdirOk then none else some (.os "mkdir" path)

/-- The string `data`. -/
def dataDir : GoString := ['d', 'a', 't', 'a']

/-- The string `chunks`. -/
def chunksDir : GoString := ['c', 'h', 'u', 'n', 'k', 's']

/-- The path `filepath.Join("data", filename)`. -/
def filePath (filename : GoString) : GoString := Join [dataDir, filename]

/-- The name `fmt.Sprintf("%s.%d", filename, i)`. -/
def chunkFilename (filename : GoString) (i : Int) : GoString := filename ++ ['.'] ++ itoa i

/-- The path `filepath.Join("data", "chunks", chunkFilename)`. -/
def chunkPath (filename : GoString) (i : Int) : GoString :=
  Join [dataDir, chunksDir, chunkFilename filename i]

/-- The slice expression `data[start:stop]`. -/
def slice (data : Bytes) (start stop : Nat) : Bytes := (data.take stop).drop start

/-- The message built by `replicateChunk`:
`fmt.Sprintf("REPLICATE:%s:%d:%d:%s", filename, chunkIndex, chunkCount, encodedData)`. -/
def replicateMessage (filename : GoString) (chunkIndex chunkCount : Int) (data : Bytes) :
    GoString :=
  ['R', 'E', 'P', 'L', 'I', 'C', 'A', 'T', 'E', ':'] ++ filename ++ [':'] ++ itoa chunkIndex
    ++ [':'] ++ itoa chunkCount ++ [':'] ++ EncodeToString data

/-- The method `FileStore.replicateChunk`: the sends attempted, one per known
peer, as pairs of peer address and message. A failed send is only logged. -/
def replicateChunk (gm : Manager) (filename : GoString) (chunkIndex chunkCount : Int)
    (data : Bytes) : List (GoString × GoString) :=
  (GetNodes gm).map (fun peer => (peer, replicateMessage filename chunkIndex chunkCount data))

/-- What `SaveFile` returns and leaves behind: the error, the store, and the
replication messages sent. -/
structure SaveResult where
  err : Option GoError
  fs : FileStore
  sent : List (GoString × GoString)

/-- The number of chunks, `int(math.Ceil(float64(len(data)) / float64(CHUNK_SIZE)))`.
The conversion to `float64` is exact below `2^53` and the divisor is a power
of two, so for every slice that fits in memory this is the ceiling of the
exact quotient. -/
def chunkCountOf (data : Bytes) : Nat := (data.length + (CHUNK_SIZE - 1)) / CHUNK_SIZE

/-- The loop `for i := range loopSlice` of `SaveFile`, over the indices still
to be written. -/
def saveChunks (gm : Manager) (filename : GoString) (data : Bytes) (chunkCount : Nat) :
    List Nat → FileStore → List (GoString × GoString) → SaveResult
  | [], fs, sent => { err := none, fs := fs, sent := sent }
  | i :: rest, fs, sent =>
    let start := i * CHUNK_SIZE
    let stop := min (start + CHUNK_SIZE) data.length
    let chunkData := slice data start stop
    match WriteFile fs.disk (chunkPath filename i) chunkData with
    | .error e => { err := some e, fs := fs, sent := sent }
    | .ok d =>
      saveChunks gm filename data chunkCount rest { fs with disk := d }
        (sent ++ replicateChunk gm filename i chunkCount chunkData)

/-- The method `FileStore.SaveFile`. -/
def SaveFile (gm : Manager) (fs : FileStore) (filename : GoString) (data : Bytes) : SaveResult :=
  if data.length ≤ CHUNK_SIZE then
    match WriteFile fs.disk (filePath filename) data with
    | .error e => { err := some e, fs := fs, sent := [] }
    | .ok d =>
      { err := none, fs := { fs with disk := d, files := mapSet fs.files filename data },
        sent := [] }
  else
    match ensureDir fs.disk (Join [dataDir, chunksDir]) with
    | some e => { err := some e, fs := fs, sent := [] }
    | none =>
      let chunkCount := chunkCountOf data
      let r := saveChunks gm filename data chunkCount (List.range chunkCount) fs []
      match r.err with
      | some _ => r
      | none =>
        let md := mapSet r.fs.metadata filename { IsChunked := true, ChunkCount := chunkCount }
        { r with fs := { r.fs with metadata := md } }

/-- What `GetFile` returns and leaves behind: the bytes, the error, and the
store (whose cache a read-through fills). -/
structure GetResult where
  data : Bytes
  err : Option GoError
  fs : FileStore

/-- The loop `for i := 0; i < meta.ChunkCount; i++` of `GetFile`, over the
indices still to be read; `fullData` is what has been appended so far. -/
def readChunks (d : Disk) (filename : GoString) : List Nat → Bytes → Bytes × Option GoError
  | [], fullData => (fullData, none)
  | i :: rest, fullData =>
    match ReadFile d (chunkPath filename i) with
    | none => ([], some (.new "file chunk not found"))
    | some chunkData => readChunks d filename rest (fullData ++ chunkData)

/-- The method `FileStore.GetFile`. -/
def GetFile (fs : FileStore) (filename : GoString) : GetResult :=
  let chunked := (fs.metadata filename).isSome
  let m := (fs.metadata filename).getD { IsChunked := false, ChunkCount := 0 }
  if chunked && m.IsChunked then
    let r := readChunks fs.disk filename (List.range m.ChunkCount.toNat) []
    { data := r.1, err := r.2, fs := fs }
  else
    match fs.files filename with
    | none =>
      match ReadFile fs.disk (filePath filename) with
      | none => { data := [], err := some (.new "file not found"), fs := fs }
      | some fileData =>
        { data := fileData, err := none,
          fs := { fs with files := mapSet fs.files filename fileData } }
    | some data => { data := data, err := none, fs := fs }

/-- The method `FileStore.SaveChunk`. -/
def SaveChunk (fs : FileStore) (filename : GoString) (chunkIndex chunkCount : Int)
    (data : Bytes) : Option GoError × FileStore :=
  match ensureDir fs.disk (Join [dataDir, chunksDir]) with
  | some e => (some e, fs)
  | none =>
    match WriteFile fs.disk (chunkPath filename chunkIndex) data with
    | .error e => (some e, fs)
    | .ok d =>
      match fs.metadata filename with
      | some _ => (none, { fs with disk := d })
      | none =>
        let md := mapSet fs.metadata filename { IsChunked := true, ChunkCount := chunkCount }
        (none, { fs with disk := d, metadata := md })

/-! ## `cmd/main.go`: the replication handler -/

/-- The parsing done by the replication handler: the arguments later passed
to `SaveChunk`, or `none` when the handler logs and returns (field count
other than five, a number that `Atoi` rejects, a payload that
`DecodeString` rejects). -/
def parseReplicate (message : GoString) : Option (GoString × Int × Int × Bytes) :=
  let parts := SplitN ':' 5 message
  if parts.length ≠ 5 then none
  else
    let filename := parts.getD 1 []
    match Atoi (parts.getD 2 []) with
    | none => none
    | some chunkIndex =>
      match Atoi (parts.getD 3 []) with
      | none => none
      | some chunkCount =>
        match DecodeString (parts.getD 4 []) with
        | none => none
        | some data => some (filename, chunkIndex, chunkCount, data)

/-- The closure assigned to `tcpconn.ReplicationHandler`; an error of
`SaveChunk` is only logged. -/
def ReplicationHandler (fs : FileStore) (message : GoString) : FileStore :=
  match parseReplicate message with
  | none => fs
  | some (filename, chunkIndex, chunkCount, data) =>
    (SaveChunk fs filename chunkIndex chunkCount data).2

/-- A disk on which every write succeeds, holding no object. -/
def emptyDisk : Disk := { objects := fun _ => none, writable := fun _ => true, mkdirOk := true }

/-! ## Runs of the membership manager -/

/-- One step on the membership manager: a call of one of its three mutating
methods, or one inbound gossip message handed to the gossip handler. -/
inductive Op where
  | addNode (address : GoString) (now : Time)
  | updateNodeHeartbeat (address : GoString) (now : Time)
  | setNodeUnhealthy (address : GoString)
  | gossip (message : GoString) (tAdd tBeat : Time) (clock : Nat → Time)

/-- The effect of one step. -/
def applyOp (gm : Manager) : Op → Manager
  | .addNode address now => AddNode gm address now
  | .updateNodeHeartbeat address now => UpdateNodeHeartbeat gm address now
  | .setNodeUnhealthy address => SetNodeUnhealthy gm address
  | .gossip message tAdd tBeat clock => GossipHandler gm message tAdd tBeat clock

/-- The effect of a sequence of steps. -/
def runOps (gm : Manager) (ops : List Op) : Manager := ops.foldl applyOp gm

/-- The table never holds the node's own address: the invariant. -/
def SelfExcluded (self : GoString) (gm : Manager) : Prop :=
  gm.self.Address = self ∧ self ∉ GetNodes gm

/-- An address as the gossip wire format can carry it: not the local node's
own, not empty, and free of white space, `|`, `[` and `]`. -/
abbrev PlainAddress (self a : GoString) : Prop :=
  a ≠ self ∧ a ≠ [] ∧ ∀ c ∈ a, isSpace c = false ∧ c ≠ '|' ∧ c ≠ '[' ∧ c ≠ ']'

/-- The bytes of chunk `i` of `data`:
`data[i*CHUNK_SIZE : min(i*CHUNK_SIZE + CHUNK_SIZE, len(data))]`. -/
def chunkAt (data : Bytes) (i : Nat) : Bytes :=
  slice data (i * CHUNK_SIZE) (min (i * CHUNK_SIZE + CHUNK_SIZE) data.length)

/-- Text that reads as a decimal integer: an optional sign followed by at
least one digit. -/
def numeric (s : GoString) : Bool :=
  match s with
  | [] => false
  | c :: cs =>
    if c = '-' ∨ c = '+' then !cs.isEmpty && cs.all isDigit
    else (c :: cs).all isDigit

/-! ## Concrete inputs used by the witnesses and counterexamples -/

/-- The address `localhost:6000`. -/
def addrLocal : GoString := "localhost:6000".toList

/-- The address `10.0.0.2:6000`. -/
def addrTwo : GoString := "10.0.0.2:6000".toList

/-- The address `10.0.0.3:6000`. -/
def addrThree : GoString := "10.0.0.3:6000".toList

/-- The bracketed IPv6 address `[::1]:6001`. -/
def addrV6 : GoString := "[::1]:6001".toList

/-- The file name `report.txt`. -/
def nameReport : GoString := "report.txt".toList

/-- A gossip message with two fields only. -/
def shortGossip : GoString := "GOSSIP|localhost:6000".toList

/-- A replication message with three fields only. -/
def shortReplicate : GoString := "REPLICATE:report.txt:0".toList

/-- A replication message whose chunk index is not a number. -/
def badIndexReplicate : GoString := "REPLICATE:report.txt:x:1:aGk=".toList

/-- A replication message whose payload lacks its padding. -/
def badPayloadReplicate : GoString := "REPLICATE:report.txt:0:1:aGk".toList

/-! ## Lemmas: splitting -/

theorem cut_append {sep : Char} {a : GoString} (h : sep ∉ a) (b : GoString) :
    cut sep (a ++ sep :: b) = some (a, b) := by
  induction a with
  | nil => simp [cut]
  | cons c cs ih =>
    have hc : c ≠ sep := by
      intro e
      exact h (by simp [e])
    have hcs : sep ∉ cs := fun hm => h (List.mem_cons_of_mem _ hm)
    simp [cut, hc, ih hcs]

theorem cut_none {sep : Char} {a : GoString} (h : sep ∉ a) : cut sep a = none := by
  induction a with
  | nil => rfl
  | cons c cs ih =>
    have hc : c ≠ sep := by
      intro e
      exact h (by simp [e])
    have hcs : sep ∉ cs := fun hm => h (List.mem_cons_of_mem _ hm)
    simp [cut, hc, ih hcs]

theorem SplitN_four {sep : Char} {a b c : GoString} (ha : sep ∉ a) (hb : sep ∉ b)
    (hc : sep ∉ c) (d : GoString) :
    SplitN sep 4 (a ++ sep :: (b ++ sep :: (c ++ sep :: d))) = [a, b, c, d] := by
  simp [SplitN, cut_append ha, cut_append hb, cut_append hc]

theorem SplitN_five {sep : Char} {a b c d : GoString} (ha : sep ∉ a) (hb : sep ∉ b)
    (hc : sep ∉ c) (hd : sep ∉ d) (e : GoString) :
    SplitN sep 5 (a ++ sep :: (b ++ sep :: (c ++ sep :: (d ++ sep :: e)))) = [a, b, c, d, e] := by
  simp [SplitN, cut_append ha, cut_append hb, cut_append hc, cut_append hd]

theorem SplitN_length_le (sep : Char) (n : Nat) (s : GoString) : (SplitN sep n s).length ≤ n := by
  induction n using Nat.strong_induction_on generalizing s with
  | _ n ih =>
    match n with
    | 0 => simp [SplitN]
    | 1 => simp [SplitN]
    | k + 2 =>
      unfold SplitN
      cases hcut : cut sep s with
      | none => simp
      | some p =>
        have := ih (k + 1) (by omega) p.2
        simp only [List.length_cons]
        omega

/-! ## Lemmas: decimal numbers -/

theorem isDigit_digitChar {d : Nat} (h : d < 10) : isDigit (digitChar d) = true := by
  interval_cases d <;> decide

theorem toNat_digitChar {d : Nat} (h : d < 10) : (digitChar d).toNat - 48 = d := by
  interval_cases d <;> decide

theorem parseFrom_digitsAux (f : Nat) : ∀ (n : Nat) (acc : GoString), n < f →
    parseFrom 0 (digitsAux f n acc) = parseFrom n acc := by
  induction f with
  | zero => intro n acc h; omega
  | succ f ih =>
    intro n acc h
    unfold digitsAux
    by_cases h10 : n < 10
    · simp [h10, parseFrom, isDigit_digitChar h10, toNat_digitChar h10]
    · have hlt : n / 10 < f := by omega
      have hm : n % 10 < 10 := Nat.mod_lt _ (by decide)
      rw [if_neg h10, ih (n / 10) _ hlt]
      simp only [parseFrom, isDigit_digitChar hm, toNat_digitChar hm, if_true]
      congr 1
      omega

theorem digitsAux_shape (f : Nat) : ∀ (n : Nat) (acc : GoString), n < f →
    ∃ c ds, isDigit c = true ∧ (∀ x ∈ ds, isDigit x = true) ∧
      digitsAux f n acc = c :: (ds ++ acc) := by
  induction f with
  | zero => intro n acc h; omega
  | succ f ih =>
    intro n acc h
    unfold digitsAux
    by_cases h10 : n < 10
    · exact ⟨digitChar n, [], isDigit_digitChar h10, by simp, by simp [h10]⟩
    · have hlt : n / 10 < f := by omega
      have hm : n % 10 < 10 := Nat.mod_lt _ (by decide)
      obtain ⟨c, ds, hc, hds, he⟩ := ih (n / 10) (digitChar (n % 10) :: acc) hlt
      refine ⟨c, ds ++ [digitChar (n % 10)], hc, ?_, ?_⟩
      · intro x hx
        rcases List.mem_append.1 hx with hx | hx
        · exact hds x hx
        · simp at hx
          rw [hx]
          exact isDigit_digitChar hm
      · rw [if_neg h10, he]
        simp

theorem formatNat_shape (n : Nat) :
    ∃ c ds, isDigit c = true ∧ (∀ x ∈ ds, isDigit x = true) ∧ formatNat n = c :: ds := by
  obtain ⟨c, ds, hc, hds, he⟩ := digitsAux_shape (n + 1) n [] (by omega)
  exact ⟨c, ds, hc, hds, by simpa [formatNat] using he⟩

theorem parseDigits_formatNat (n : Nat) : parseDigits (formatNat n) = some n := by
  obtain ⟨c, ds, _, _, he⟩ := formatNat_shape n
  have h := parseFrom_digitsAux (n + 1) n [] (by omega)
  unfold parseDigits
  rw [if_neg (by rw [he]; simp)]
  simpa [formatNat, parseFrom] using h

theorem formatNat_injective {m n : Nat} (h : formatNat m = formatNat n) : m = n := by
  have := parseDigits_formatNat m
  rw [h, parseDigits_formatNat] at this
  exact (Option.some.inj this).symm

theorem isDigit_ne {c x : Char} (hc : isDigit c = true) (hx : isDigit x = false) : c ≠ x := by
  intro e
  rw [e, hx] at hc
  exact Bool.noConfusion hc

theorem mem_itoa {i : Int} {x : Char} (h : x ∈ itoa i) : x = '-' ∨ isDigit x = true := by
  obtain ⟨c, ds, hc, hds, he⟩ := formatNat_shape i.natAbs
  unfold itoa at h
  split at h
  · rw [he] at h
    rcases List.mem_cons.1 h with h | h
    · exact Or.inl h
    · rcases List.mem_cons.1 h with h | h
      · exact Or.inr (h ▸ hc)
      · exact Or.inr (hds x h)
  · rw [he] at h
    rcases List.mem_cons.1 h with h | h
    · exact Or.inr (h ▸ hc)
    · exact Or.inr (hds x h)

theorem not_mem_itoa {x : Char} (i : Int) (h1 : x ≠ '-') (h2 : isDigit x = false) :
    x ∉ itoa i := by
  intro h
  rcases mem_itoa h with h | h
  · exact h1 h
  · rw [h2] at h
    exact Bool.noConfusion h

theorem itoa_ne_nil (i : Int) : itoa i ≠ [] := by
  obtain ⟨c, ds, _, _, he⟩ := formatNat_shape i.natAbs
  unfold itoa
  split <;> simp [he]

theorem itoa_injective {i j : Int} (h : itoa i = itoa j) : i = j := by
  obtain ⟨c, ds, hc, _, he⟩ := formatNat_shape i.natAbs
  obtain ⟨c2, ds2, hc2, _, he2⟩ := formatNat_shape j.natAbs
  unfold itoa at h
  by_cases hi : i < 0 <;> by_cases hj : j < 0
  · rw [if_pos hi, if_pos hj] at h
    have := formatNat_injective (List.cons.inj h).2
    omega
  · rw [if_pos hi, if_neg hj, he2] at h
    have := (List.cons.inj h).1
    rw [← this] at hc2
    exact absurd hc2 (by decide)
  · rw [if_neg hi, if_pos hj, he] at h
    have := (List.cons.inj h).1
    rw [this] at hc
    exact absurd hc (by decide)
  · rw [if_neg hi, if_neg hj] at h
    have := formatNat_injective h
    omega

theorem Atoi_itoa {i : Int} (hlo : -(2 ^ 63) ≤ i) (hhi : i < 2 ^ 63) : Atoi (itoa i) = some i := by
  obtain ⟨c, ds, hc, _, he⟩ := formatNat_shape i.natAbs
  have hp := parseDigits_formatNat i.natAbs
  by_cases hi : i < 0
  · have hb : i.natAbs ≤ 2 ^ 63 := by omega
    have hv : -((i.natAbs : Nat) : Int) = i := by omega
    simp [itoa, hi, Atoi, hp]
    exact ⟨by omega, by rw [abs_of_neg hi]; simp⟩
  · have hb : i.natAbs < 2 ^ 63 := by omega
    have hv : ((i.natAbs : Nat) : Int) = i := by omega
    have h1 : c ≠ '-' := isDigit_ne hc (by decide)
    have h2 : c ≠ '+' := isDigit_ne hc (by decide)
    have hp2 : parseDigits (c :: ds) = some i.natAbs := he ▸ hp
    simp [itoa, hi, he, Atoi, h1, h2, hp2]
    omega

/-! ## Lemmas: fields, trimming, joining -/

theorem fieldsGo_word (w : GoString) (hw : ∀ c ∈ w, isSpace c = false) :
    ∀ (cur rest : GoString), fieldsGo cur (w ++ rest) = fieldsGo (cur ++ w) rest := by
  induction w with
  | nil => intro cur rest; simp
  | cons c cs ih =>
    intro cur rest
    have hc : isSpace c = false := hw c (List.mem_cons_self _ _)
    have hcs : ∀ x ∈ cs, isSpace x = false := fun x hx => hw x (List.mem_cons_of_mem _ hx)
    rw [List.cons_append, fieldsGo]
    simp only [hc, Bool.false_eq_true, if_false]
    rw [ih hcs]
    simp

theorem Fields_strJoin (ws : List GoString)
    (hws : ∀ w ∈ ws, w ≠ [] ∧ ∀ c ∈ w, isSpace c = false) :
    Fields (strJoin [Char.ofNat 32] ws) = ws := by
  unfold Fields
  induction ws with
  | nil => simp [strJoin, fieldsGo]
  | cons a rest ih =>
    have ha := hws a (List.mem_cons_self _ _)
    have hrest : ∀ w ∈ rest, w ≠ [] ∧ ∀ c ∈ w, isSpace c = false :=
      fun w hw => hws w (List.mem_cons_of_mem _ hw)
    cases rest with
    | nil =>
      have := fieldsGo_word a ha.2 [] []
      simp only [List.append_nil, List.nil_append] at this
      simp [strJoin, this, fieldsGo, ha.1]
    | cons b rest2 =>
      have hsp : isSpace (Char.ofNat 32) = true := by decide
      simp only [strJoin, List.append_assoc]
      rw [fieldsGo_word a ha.2]
      simp only [List.nil_append, List.singleton_append]
      rw [fieldsGo]
      simp only [hsp, if_true, if_neg ha.1]
      rw [ih hrest]

theorem strJoin_ne_nil (sep : GoString) (w : GoString) (rest : List GoString) (hw : w ≠ []) :
    strJoin sep (w :: rest) ≠ [] := by
  cases rest with
  | nil => simpa [strJoin] using hw
  | cons b r => simp [strJoin, hw]

theorem strJoin_head? (sep : GoString) (w : GoString) (rest : List GoString) (hw : w ≠ []) :
    (strJoin sep (w :: rest)).head? = w.head? := by
  cases w with
  | nil => exact absurd rfl hw
  | cons x t =>
    cases rest with
    | nil => simp [strJoin]
    | cons b r => simp [strJoin]

theorem strJoin_getLast? (sep : GoString) (ws : List GoString) (hne : ws ≠ [])
    (hws : ∀ w ∈ ws, w ≠ []) :
    (strJoin sep ws).getLast? = (ws.getLast hne).getLast? := by
  induction ws with
  | nil => exact absurd rfl hne
  | cons a rest ih =>
    cases rest with
    | nil => simp [strJoin]
    | cons b r =>
      have hb : ∀ w ∈ b :: r, w ≠ [] := fun w hw => hws w (List.mem_cons_of_mem _ hw)
      have hne2 : strJoin sep (b :: r) ≠ [] := strJoin_ne_nil sep b r (hb b (List.mem_cons_self _ _))
      have := ih (List.cons_ne_nil _ _) hb
      simp only [strJoin, List.append_assoc]
      rw [List.getLast?_append_of_ne_nil _ (by simp [hne2]),
        List.getLast?_append_of_ne_nil _ hne2, this]
      simp

theorem TrimLeft_cons_of_mem (cs : List Char) (b : Char) (s : GoString) (hb : b ∈ cs)
    (hh : ∀ c, s.head? = some c → c ∉ cs) : TrimLeft cs (b :: s) = s := by
  unfold TrimLeft
  cases s with
  | nil => simp [List.dropWhile, hb]
  | cons x t =>
    have hx : x ∉ cs := hh x rfl
    simp [List.dropWhile, hb, hx]

theorem TrimRight_concat_of_mem (cs : List Char) (b : Char) (s : GoString) (hb : b ∈ cs)
    (hl : ∀ c, s.getLast? = some c → c ∉ cs) : TrimRight cs (s ++ [b]) = s := by
  unfold TrimRight
  have hrev : ∀ c, s.reverse.head? = some c → c ∉ cs := by
    intro c hc
    apply hl
    simpa [List.head?_reverse] using hc
  have := TrimLeft_cons_of_mem cs b s.reverse hb hrev
  unfold TrimLeft at this
  simp [this]

theorem Trim_wrap (cs : List Char) (a b : Char) (s : GoString) (ha : a ∈ cs) (hb : b ∈ cs)
    (hne : s ≠ []) (hh : ∀ c, s.head? = some c → c ∉ cs)
    (hl : ∀ c, s.getLast? = some c → c ∉ cs) : Trim cs (a :: (s ++ [b])) = s := by
  unfold Trim
  have h1 : TrimRight cs (a :: (s ++ [b])) = a :: s := by
    have := TrimRight_concat_of_mem cs b (a :: s) hb (by
      intro c hc
      apply hl
      cases s with
      | nil => exact absurd rfl hne
      | cons x t => simpa [List.getLast?_cons_cons] using hc)
    simpa using this
  rw [h1]
  exact TrimLeft_cons_of_mem cs a s ha hh

/-! ## Lemmas: the gossip wire format -/

theorem gossipMessage_eq (self : GoString) (unix : Int) (nodeList : List GoString) :
    gossipMessage self unix nodeList =
      ['G', 'O', 'S', 'S', 'I', 'P'] ++ '|' :: (self ++ '|' :: (itoa unix ++ '|' ::
        formatList nodeList)) := by
  simp [gossipMessage]

theorem parseGossip_format (self : GoString) (unix : Int) (peers : List GoString)
    (hself : '|' ∉ self) (hne : peers ≠ [])
    (hp : ∀ w ∈ peers, w ≠ [] ∧ ∀ c ∈ w, isSpace c = false)
    (hfirst : ∀ c, (peers.head hne).head? = some c → c ≠ '[' ∧ c ≠ ']')
    (hlast : ∀ c, (peers.getLast hne).getLast? = some c → c ≠ '[' ∧ c ≠ ']') :
    parseGossip (gossipMessage self unix peers) = some (self, peers) := by
  have hG : '|' ∉ ['G', 'O', 'S', 'S', 'I', 'P'] := by decide
  have hI : '|' ∉ itoa unix := not_mem_itoa unix (by decide) (by decide)
  have hsplit := SplitN_four hG hself hI (formatList peers)
  obtain ⟨w, rest, rfl⟩ : ∃ w rest, peers = w :: rest := by
    cases peers with
    | nil => exact absurd rfl hne
    | cons w rest => exact ⟨w, rest, rfl⟩
  have hw : w ≠ [] := (hp w (List.mem_cons_self _ _)).1
  have hall : ∀ x ∈ w :: rest, x ≠ [] := fun x hx => (hp x hx).1
  have htrim : Trim ['[', ']'] (formatList (w :: rest)) = strJoin [Char.ofNat 32] (w :: rest) := by
    unfold formatList
    apply Trim_wrap _ _ _ _ (by decide) (by decide) (strJoin_ne_nil _ w rest hw)
    · intro c hc
      rw [strJoin_head? _ w rest hw] at hc
      have := hfirst c (by simpa using hc)
      simp [this.1, this.2]
    · intro c hc
      rw [strJoin_getLast? _ (w :: rest) hne hall] at hc
      have := hlast c hc
      simp [this.1, this.2]
  unfold parseGossip
  rw [gossipMessage_eq, hsplit]
  simp only [List.length_cons, List.length_nil, List.getD_cons_succ, List.getD_cons_zero]
  rw [htrim, Fields_strJoin _ hp]
  simp

/-! ## Lemmas: the membership table -/

theorem lookup_append (a : GoString) (l l2 : List (GoString × Node)) :
    lookup a (l ++ l2) = match lookup a l with
      | some n => some n
      | none => lookup a l2 := by
  induction l with
  | nil => simp [lookup]
  | cons p rest ih =>
    by_cases hk : p.1 = a
    · simp [lookup, hk]
    · simp [lookup, hk, ih]

theorem lookup_map_update (a addr : GoString) (g : Node → Node) (l : List (GoString × Node)) :
    lookup a (l.map (fun p => (p.1, if p.1 = addr then g p.2 else p.2))) =
      if a = addr then (lookup a l).map g else lookup a l := by
  induction l with
  | nil => simp [lookup]
  | cons p rest ih =>
    by_cases hk : p.1 = a
    · by_cases ha : a = addr
      · simp [lookup, hk, ha]
      · simp [lookup, hk, ha]
    · simp only [List.map_cons, lookup, if_neg hk, ih]

theorem AddNode_self (gm : Manager) (a : GoString) (t : Time) : (AddNode gm a t).self = gm.self := by
  unfold AddNode
  split <;> rfl

theorem UpdateNodeHeartbeat_self (gm : Manager) (a : GoString) (t : Time) :
    (UpdateNodeHeartbeat gm a t).self = gm.self := by
  unfold UpdateNodeHeartbeat
  split <;> rfl

theorem SetNodeUnhealthy_self (gm : Manager) (a : GoString) :
    (SetNodeUnhealthy gm a).self = gm.self := by
  unfold SetNodeUnhealthy
  split <;> rfl

theorem lookup_AddNode (gm : Manager) (a x : GoString) (t : Time) :
    lookup x (AddNode gm a t).Nodes = match lookup x gm.Nodes with
      | some n => some n
      | none =>
        if x = a ∧ a ≠ gm.self.Address then
          some { Address := a, Healthy := true, LastHeartbeat := t, FileList := [] }
        else none := by
  unfold AddNode
  by_cases h : lookup a gm.Nodes = none ∧ a ≠ gm.self.Address
  · rw [if_pos h]
    simp only [lookup_append]
    cases hx : lookup x gm.Nodes with
    | some n => rfl
    | none =>
      by_cases hxa : x = a
      · simp [lookup, hxa, h.2]
      · have : ¬ a = x := fun e => hxa e.symm
        simp [lookup, hxa, this]
  · rw [if_neg h]
    cases hx : lookup x gm.Nodes with
    | some n => rfl
    | none =>
      by_cases hxa : x = a
      · subst hxa
        have : ¬ x ≠ gm.self.Address := fun h2 => h ⟨hx, h2⟩
        simp [this]
      · simp [hxa]

theorem lookup_UpdateNodeHeartbeat (gm : Manager) (a x : GoString) (t : Time) :
    lookup x (UpdateNodeHeartbeat gm a t).Nodes =
      if x = a then (lookup x gm.Nodes).map (fun n => { n with LastHeartbeat := t, Healthy := true })
      else lookup x gm.Nodes := by
  unfold UpdateNodeHeartbeat
  cases h : lookup a gm.Nodes with
  | none =>
    by_cases hxa : x = a
    · simp [hxa, h]
    · simp [hxa]
  | some n =>
    exact lookup_map_update x a (fun n => { n with LastHeartbeat := t, Healthy := true }) gm.Nodes

/-- The keys of the table after each operation. -/
theorem keys_AddNode (gm : Manager) (a : GoString) (t : Time) (k : GoString)
    (hk : k ∈ GetNodes (AddNode gm a t)) : k ∈ GetNodes gm ∨ (k = a ∧ a ≠ gm.self.Address) := by
  unfold AddNode at hk
  split at hk
  · rename_i h
    simp only [GetNodes, List.map_append, List.mem_append, List.map_cons, List.map_nil,
      List.mem_singleton] at hk
    rcases hk with hk | hk
    · exact Or.inl hk
    · exact Or.inr ⟨hk, h.2⟩
  · exact Or.inl hk

theorem keys_map_update (addr : GoString) (g : Node → Node) (l : List (GoString × Node)) :
    (l.map (fun p => (p.1, if p.1 = addr then g p.2 else p.2))).map Prod.fst = l.map Prod.fst := by
  induction l with
  | nil => rfl
  | cons p rest ih => simp only [List.map_cons, ih]

theorem keys_UpdateNodeHeartbeat (gm : Manager) (a : GoString) (t : Time) :
    GetNodes (UpdateNodeHeartbeat gm a t) = GetNodes gm := by
  unfold UpdateNodeHeartbeat GetNodes
  split
  · exact keys_map_update a (fun n => { n with LastHeartbeat := t, Healthy := true }) gm.Nodes
  · rfl

theorem keys_SetNodeUnhealthy (gm : Manager) (a : GoString) :
    GetNodes (SetNodeUnhealthy gm a) = GetNodes gm := by
  unfold SetNodeUnhealthy GetNodes
  split
  · exact keys_map_update a (fun n => { n with Healthy := false }) gm.Nodes
  · rfl

theorem SelfExcluded_AddNode {self : GoString} {gm : Manager} (h : SelfExcluded self gm)
    (a : GoString) (t : Time) : SelfExcluded self (AddNode gm a t) := by
  refine ⟨by rw [AddNode_self]; exact h.1, ?_⟩
  intro hm
  rcases keys_AddNode gm a t self hm with h1 | h1
  · exact h.2 h1
  · exact h1.2 (h1.1 ▸ h.1.symm)

theorem SelfExcluded_UpdateNodeHeartbeat {self : GoString} {gm : Manager}
    (h : SelfExcluded self gm) (a : GoString) (t : Time) :
    SelfExcluded self (UpdateNodeHeartbeat gm a t) :=
  ⟨by rw [UpdateNodeHeartbeat_self]; exact h.1, by rw [keys_UpdateNodeHeartbeat]; exact h.2⟩

theorem SelfExcluded_SetNodeUnhealthy {self : GoString} {gm : Manager}
    (h : SelfExcluded self gm) (a : GoString) : SelfExcluded self (SetNodeUnhealthy gm a) :=
  ⟨by rw [SetNodeUnhealthy_self]; exact h.1, by rw [keys_SetNodeUnhealthy]; exact h.2⟩

theorem SelfExcluded_addPeers {self : GoString} (clock : Nat → Time) (peers : List GoString) :
    ∀ (k : Nat) (gm : Manager), SelfExcluded self gm →
      SelfExcluded self (addPeers clock k gm peers) := by
  induction peers with
  | nil => intro k gm h; exact h
  | cons a rest ih =>
    intro k gm h
    unfold addPeers
    split
    · exact ih _ _ (SelfExcluded_AddNode h a _)
    · exact ih _ _ h

theorem SelfExcluded_GossipHandler {self : GoString} {gm : Manager} (h : SelfExcluded self gm)
    (message : GoString) (tAdd tBeat : Time) (clock : Nat → Time) :
    SelfExcluded self (GossipHandler gm message tAdd tBeat clock) := by
  unfold GossipHandler
  split
  · exact h
  · exact SelfExcluded_addPeers clock _ 0 _
      (SelfExcluded_UpdateNodeHeartbeat (SelfExcluded_AddNode h _ _) _ _)

theorem SelfExcluded_runOps {self : GoString} (ops : List Op) :
    ∀ gm : Manager, SelfExcluded self gm → SelfExcluded self (runOps gm ops) := by
  induction ops with
  | nil => intro gm h; exact h
  | cons op rest ih =>
    intro gm h
    have hstep : SelfExcluded self (applyOp gm op) := by
      cases op with
      | addNode a t => exact SelfExcluded_AddNode h a t
      | updateNodeHeartbeat a t => exact SelfExcluded_UpdateNodeHeartbeat h a t
      | setNodeUnhealthy a => exact SelfExcluded_SetNodeUnhealthy h a
      | gossip m t1 t2 clock => exact SelfExcluded_GossipHandler h m t1 t2 clock
    exact ih _ hstep

theorem lookup_eq_none_of_not_mem (a : GoString) (l : List (GoString × Node))
    (h : a ∉ l.map Prod.fst) : lookup a l = none := by
  induction l with
  | nil => rfl
  | cons p rest ih =>
    simp only [List.map_cons, List.mem_cons, not_or] at h
    have h1 : ¬ p.1 = a := fun e => h.1 e.symm
    simp only [lookup, if_neg h1]
    exact ih h.2

theorem addPeers_two (clock : Nat → Time) (gm : Manager) (B C : GoString)
    (hB : B ≠ [] ∧ B ≠ gm.self.Address) (hC : C ≠ [] ∧ C ≠ gm.self.Address) :
    addPeers clock 0 gm [B, C] = AddNode (AddNode gm B (clock 0)) C (clock 1) := by
  have hC2 : C ≠ [] ∧ C ≠ SelfAddress (AddNode gm B (clock 0)) := by
    unfold SelfAddress
    rw [AddNode_self]
    exact hC
  have hB2 : B ≠ [] ∧ B ≠ SelfAddress gm := hB
  simp only [addPeers, if_pos hB2, if_pos hC2]

theorem gossip_merge_lookup (gm : Manager) (A B C : GoString) (tAdd tBeat tB tC : Time)
    (hA : A ≠ gm.self.Address) (hB : B ≠ gm.self.Address) (hC : C ≠ gm.self.Address) :
    let gm2 := AddNode (AddNode (UpdateNodeHeartbeat (AddNode gm A tAdd) A tBeat) B tB) C tC
    (∃ n, lookup A gm2.Nodes = some n ∧ n.Healthy = true ∧ n.LastHeartbeat = tBeat) ∧
    (∃ n, lookup B gm2.Nodes = some n ∧ (lookup B gm.Nodes = none → n.Healthy = true)) ∧
    (∃ n, lookup C gm2.Nodes = some n ∧ (lookup C gm.Nodes = none → n.Healthy = true)) := by
  intro gm2
  have hself1 : (AddNode gm A tAdd).self = gm.self := AddNode_self _ _ _
  have hself2 : (UpdateNodeHeartbeat (AddNode gm A tAdd) A tBeat).self = gm.self := by
    rw [UpdateNodeHeartbeat_self, hself1]
  have hself3 : (AddNode (UpdateNodeHeartbeat (AddNode gm A tAdd) A tBeat) B tB).self = gm.self := by
    rw [AddNode_self, hself2]
  have key : ∀ x, lookup x gm2.Nodes =
      match (if x = A then
          (match lookup x gm.Nodes with
            | some n => some n
            | none => some { Address := A, Healthy := true, LastHeartbeat := tAdd, FileList := [] }
            ).map (fun n : Node => { n with LastHeartbeat := tBeat, Healthy := true })
        else lookup x gm.Nodes) with
      | some n => some n
      | none =>
        if x = B then some { Address := B, Healthy := true, LastHeartbeat := tB, FileList := [] }
        else if x = C then
          some { Address := C, Healthy := true, LastHeartbeat := tC, FileList := [] }
        else none := by
    intro x
    show lookup x (AddNode _ C tC).Nodes = _
    rw [lookup_AddNode, lookup_AddNode, lookup_UpdateNodeHeartbeat, lookup_AddNode, hself3, hself2]
    by_cases hxA : x = A
    · subst hxA
      cases h0 : lookup x gm.Nodes <;> simp [hA]
    · cases h0 : lookup x gm.Nodes with
      | some n => simp [hxA]
      | none =>
        by_cases hxB : x = B
        · subst hxB
          simp [hxA, hB]
        · by_cases hxC : x = C
          · subst hxC
            simp [hxA, hxB, hC]
          · simp [hxA, hxB, hxC]
  refine ⟨?_, ?_, ?_⟩
  · rw [key A]
    cases h0 : lookup A gm.Nodes <;> simp
  · rw [key B]
    by_cases hBA : B = A
    · cases h0 : lookup B gm.Nodes <;> simp [hBA]
    · cases h0 : lookup B gm.Nodes <;> simp [hBA]
  · rw [key C]
    by_cases hCA : C = A
    · cases h0 : lookup C gm.Nodes <;> simp [hCA]
    · by_cases hCB : C = B
      · subst hCB
        cases h0 : lookup C gm.Nodes <;> simp [hCA]
      · cases h0 : lookup C gm.Nodes <;> simp [hCA, hCB]

/-! ## Lemmas: paths -/

theorem splitGo_free (sep : Char) (t : GoString) (ht : sep ∉ t) :
    ∀ cur : GoString, splitGo sep cur t = [cur ++ t] := by
  induction t with
  | nil => intro cur; simp [splitGo]
  | cons c cs ih =>
    intro cur
    have hc : c ≠ sep := by
      intro e
      exact ht (by simp [e])
    have hcs : sep ∉ cs := fun hm => ht (List.mem_cons_of_mem _ hm)
    rw [splitGo, if_neg hc, ih hcs]
    simp

theorem splitGo_append_free (sep : Char) (s : GoString) :
    ∀ cur : GoString, ∃ init last, splitGo sep cur s = init ++ [last] ∧
      ∀ t, sep ∉ t → splitGo sep cur (s ++ t) = init ++ [last ++ t] := by
  induction s with
  | nil =>
    intro cur
    exact ⟨[], cur, by simp [splitGo], fun t ht => by simpa using splitGo_free sep t ht cur⟩
  | cons c cs ih =>
    intro cur
    by_cases hc : c = sep
    · obtain ⟨init, last, h1, h2⟩ := ih []
      refine ⟨cur :: init, last, ?_, ?_⟩
      · rw [splitGo, if_pos hc, h1]
        rfl
      · intro t ht
        rw [List.cons_append, splitGo, if_pos hc, h2 t ht]
        rfl
    · obtain ⟨init, last, h1, h2⟩ := ih (cur ++ [c])
      refine ⟨init, last, ?_, ?_⟩
      · rw [splitGo, if_neg hc, h1]
      · intro t ht
        rw [List.cons_append, splitGo, if_neg hc, h2 t ht]

theorem strJoin_concat (sep : GoString) (l : List GoString) (x : GoString) :
    strJoin sep (l ++ [x]) = (if l = [] then [] else strJoin sep l ++ sep) ++ x := by
  induction l with
  | nil => simp [strJoin]
  | cons a rest ih =>
    cases rest with
    | nil => simp [strJoin]
    | cons b r =>
      have e : strJoin sep (a :: b :: (r ++ [x])) = a ++ sep ++ strJoin sep (b :: (r ++ [x])) := rfl
      have e2 : strJoin sep (a :: b :: r) = a ++ sep ++ strJoin sep (b :: r) := rfl
      rw [List.cons_append, List.cons_append, e, ← List.cons_append, ih, e2]
      simp

theorem chunkPath_shape (filename : GoString) :
    ∃ base : GoString, ∀ i : Int, chunkPath filename i = base ++ itoa i := by
  obtain ⟨init, last, _, h2⟩ := splitGo_append_free '/'
    (dataDir ++ ['/'] ++ (chunksDir ++ ['/'] ++ filename)) []
  refine ⟨(if ((init.foldl (cleanStep false) []).reverse = []) then []
      else strJoin ['/'] (init.foldl (cleanStep false) []).reverse ++ ['/']) ++ (last ++ ['.']), ?_⟩
  intro i
  have hfree : '/' ∉ '.' :: itoa i := by
    intro hm
    rcases List.mem_cons.1 hm with hm | hm
    · exact absurd hm (by decide)
    · exact not_mem_itoa i (by decide) (by decide) hm
  have hsplit := h2 ('.' :: itoa i) hfree
  have hpath : strJoin ['/'] [dataDir, chunksDir, chunkFilename filename i] =
      dataDir ++ ['/'] ++ (chunksDir ++ ['/'] ++ filename) ++ '.' :: itoa i := by
    simp [strJoin, chunkFilename]
  have hx1 : last ++ '.' :: itoa i ≠ [] := by simp
  have hx2 : last ++ '.' :: itoa i ≠ ['.'] := by
    intro e
    have hl := congrArg List.length e
    have := List.length_pos.2 (itoa_ne_nil i)
    simp at hl
    omega
  have hx3 : last ++ '.' :: itoa i ≠ ['.', '.'] := by
    intro e
    have hne := itoa_ne_nil i
    cases last with
    | nil =>
      simp at e
      exact not_mem_itoa i (by decide) (by decide) (x := '.') (by rw [e]; simp)
    | cons c r =>
      have hl := congrArg List.length e
      have := List.length_pos.2 hne
      simp at hl
      omega
  have hstep : cleanStep false (init.foldl (cleanStep false) []) (last ++ '.' :: itoa i) =
      (last ++ '.' :: itoa i) :: init.foldl (cleanStep false) [] := by
    unfold cleanStep
    rw [if_neg (by simp [hx1, hx2]), if_neg hx3]
  have hhead : (dataDir ++ ['/'] ++ (chunksDir ++ ['/'] ++ filename) ++ '.' :: itoa i) ≠ [] := by
    simp [dataDir]
  have hroot : decide ((dataDir ++ ['/'] ++ (chunksDir ++ ['/'] ++ filename)
      ++ '.' :: itoa i).head? = some '/') = false := by
    simp [dataDir]
  unfold chunkPath Join
  have hdrop : List.dropWhile (fun e => decide (e = []))
      [dataDir, chunksDir, chunkFilename filename i] =
      [dataDir, chunksDir, chunkFilename filename i] := by
    simp [List.dropWhile, dataDir]
  rw [hdrop]
  simp only []
  rw [hpath]
  unfold Clean
  rw [if_neg hhead]
  simp only [hroot, hsplit, List.foldl_append, List.foldl_cons, List.foldl_nil, hstep,
    List.reverse_cons, Bool.false_eq_true, if_false]
  rw [if_neg (by simp), strJoin_concat]
  simp

theorem chunkPath_injective (filename : GoString) {i j : Int}
    (h : chunkPath filename i = chunkPath filename j) : i = j := by
  obtain ⟨base, hb⟩ := chunkPath_shape filename
  rw [hb i, hb j] at h
  exact itoa_injective (List.append_cancel_left h)

/-! ## Lemmas: the file store -/

theorem mapSet_same {β : Type} (m : GoString → Option β) (k : GoString) (v : β) :
    mapSet m k v k = some v := by
  simp [mapSet]

theorem mapSet_other {β : Type} (m : GoString → Option β) (k x : GoString) (v : β) (h : x ≠ k) :
    mapSet m k v x = m x := by
  simp [mapSet, h]

theorem mapSet_idem {β : Type} (m : GoString → Option β) (k : GoString) (v : β) :
    mapSet (mapSet m k v) k v = mapSet m k v := by
  funext x
  by_cases h : x = k <;> simp [mapSet, h]

theorem saveChunks_ok (gm : Manager) (filename : GoString) (data : Bytes) (cc : Nat) :
    ∀ (is : List Nat) (fs : FileStore) (sent : List (GoString × GoString)),
      (∀ i ∈ is, fs.disk.writable (chunkPath filename (i : Nat)) = true) →
      (saveChunks gm filename data cc is fs sent).err = none ∧
      (saveChunks gm filename data cc is fs sent).fs.files = fs.files ∧
      (saveChunks gm filename data cc is fs sent).fs.metadata = fs.metadata ∧
      (saveChunks gm filename data cc is fs sent).fs.disk.writable = fs.disk.writable ∧
      (saveChunks gm filename data cc is fs sent).fs.disk.mkdirOk = fs.disk.mkdirOk ∧
      (∀ i ∈ is, (saveChunks gm filename data cc is fs sent).fs.disk.objects
        (chunkPath filename (i : Nat)) = some (chunkAt data i)) ∧
      (∀ p, (∀ i ∈ is, p ≠ chunkPath filename (i : Nat)) →
        (saveChunks gm filename data cc is fs sent).fs.disk.objects p = fs.disk.objects p) := by
  intro is
  induction is with
  | nil =>
    intro fs sent _
    simp [saveChunks]
  | cons i rest ih =>
    intro fs sent hw
    have hwi : fs.disk.writable (chunkPath filename (i : Nat)) = true := hw i (List.mem_cons_self _ _)
    have hstep : saveChunks gm filename data cc (i :: rest) fs sent =
        saveChunks gm filename data cc rest
          { fs with disk := { fs.disk with
              objects := mapSet fs.disk.objects (chunkPath filename (i : Nat)) (chunkAt data i) } }
          (sent ++ replicateChunk gm filename i cc (chunkAt data i)) := by
      rw [saveChunks]
      simp only [WriteFile, hwi, if_true, chunkAt]
    rw [hstep]
    obtain ⟨h1, h2, h3, h4, h5, h6, h7⟩ := ih
      { fs with disk := { fs.disk with
          objects := mapSet fs.disk.objects (chunkPath filename (i : Nat)) (chunkAt data i) } }
      (sent ++ replicateChunk gm filename i cc (chunkAt data i))
      (fun j hj => hw j (List.mem_cons_of_mem _ hj))
    refine ⟨h1, h2, h3, h4, h5, ?_, ?_⟩
    · intro j hj
      by_cases hjr : j ∈ rest
      · exact h6 j hjr
      · have hji : j = i := by
          rcases List.mem_cons.1 hj with h | h
          · exact h
          · exact absurd h hjr
        subst hji
        rw [h7]
        · exact mapSet_same _ _ _
        · intro k hk e
          have := chunkPath_injective filename e
          have hkj : k = j := by omega
          exact hjr (hkj ▸ hk)
    · intro q hq
      rw [h7 q (fun j hj => hq j (List.mem_cons_of_mem _ hj))]
      exact mapSet_other _ _ _ _ (hq i (List.mem_cons_self _ _))

theorem readChunks_ok (d : Disk) (filename : GoString) (c : Nat → Bytes) :
    ∀ (is : List Nat) (acc : Bytes),
      (∀ i ∈ is, d.objects (chunkPath filename (i : Nat)) = some (c i)) →
      readChunks d filename is acc = (acc ++ (is.map c).flatten, none) := by
  intro is
  induction is with
  | nil => intro acc _; simp [readChunks]
  | cons i rest ih =>
    intro acc h
    rw [readChunks]
    simp only [ReadFile, h i (List.mem_cons_self _ _)]
    rw [ih _ (fun j hj => h j (List.mem_cons_of_mem _ hj))]
    simp

theorem readChunks_missing (d : Disk) (filename : GoString) :
    ∀ (is : List Nat) (acc : Bytes),
      (∃ i ∈ is, d.objects (chunkPath filename (i : Nat)) = none) →
      readChunks d filename is acc = ([], some (.new "file chunk not found")) := by
  intro is
  induction is with
  | nil =>
    intro acc h
    obtain ⟨i, hi, _⟩ := h
    exact absurd hi (List.not_mem_nil _)
  | cons i rest ih =>
    intro acc h
    rw [readChunks]
    cases hr : ReadFile d (chunkPath filename (i : Nat)) with
    | none => rfl
    | some chunkData =>
      simp only []
      apply ih
      obtain ⟨j, hj, hnone⟩ := h
      rcases List.mem_cons.1 hj with e | e
      · subst e
        unfold ReadFile at hr
        rw [hr] at hnone
        exact Option.noConfusion hnone
      · exact ⟨j, e, hnone⟩

theorem take_chunks (data : Bytes) (n : Nat) :
    ((List.range n).map (chunkAt data)).flatten = data.take (n * CHUNK_SIZE) := by
  induction n with
  | zero => simp
  | succ n ih =>
    rw [List.range_succ, List.map_append, List.flatten_append, ih]
    simp only [List.map_cons, List.map_nil, List.flatten_cons, List.flatten_nil, List.append_nil]
    unfold chunkAt slice
    have h1 : List.take (min (n * CHUNK_SIZE + CHUNK_SIZE) data.length) data =
        List.take (n * CHUNK_SIZE + CHUNK_SIZE) data := by
      rcases Nat.le_total (n * CHUNK_SIZE + CHUNK_SIZE) data.length with h | h
      · rw [Nat.min_eq_left h]
      · rw [Nat.min_eq_right h, List.take_of_length_le (le_refl _), List.take_of_length_le h]
    rw [h1]
    have h2 : List.take (n * CHUNK_SIZE) data =
        List.take (n * CHUNK_SIZE) (List.take (n * CHUNK_SIZE + CHUNK_SIZE) data) := by
      rw [List.take_take, Nat.min_eq_left (Nat.le_add_right _ _)]
    rw [h2, List.take_append_drop, Nat.succ_mul]

theorem chunkCountOf_spec (data : Bytes) :
    data.length ≤ chunkCountOf data * CHUNK_SIZE ∧
      (0 < data.length → (chunkCountOf data - 1) * CHUNK_SIZE < data.length) := by
  unfold chunkCountOf CHUNK_SIZE
  constructor
  · omega
  · intro h
    omega

theorem decodeStd_encodeStd {i : Nat} (h : i < 64) : decodeStd (encodeStd i) = some i := by
  interval_cases i <;> decide

theorem encodeStd_plain {i : Nat} (h : i < 64) :
    encodeStd i ≠ Char.ofNat 10 ∧ encodeStd i ≠ Char.ofNat 13 := by
  interval_cases i <;> decide

theorem decodeStd_pad : decodeStd '=' = none := by decide

theorem toByte_val (a : Byte) (n : Nat) (h : n % 256 = a.val) : toByte n = a :=
  Fin.ext h

theorem EncodeToString_plain : ∀ (data : Bytes) (c : Char), c ∈ EncodeToString data →
    c ≠ Char.ofNat 10 ∧ c ≠ Char.ofNat 13
  | [], c, h => by simp [EncodeToString] at h
  | [a], c, h => by
    have ha := a.isLt
    simp only [EncodeToString, List.mem_cons, List.mem_singleton, List.not_mem_nil, or_false] at h
    rcases h with h | h | h | h
    · exact h ▸ encodeStd_plain (by omega)
    · exact h ▸ encodeStd_plain (by omega)
    · subst h; decide
    · subst h; decide
  | [a, b], c, h => by
    have ha := a.isLt
    have hb := b.isLt
    simp only [EncodeToString, List.mem_cons, List.mem_singleton, List.not_mem_nil, or_false] at h
    rcases h with h | h | h | h
    · exact h ▸ encodeStd_plain (by omega)
    · exact h ▸ encodeStd_plain (by omega)
    · exact h ▸ encodeStd_plain (by omega)
    · subst h; decide
  | a :: b :: c3 :: rest, c, h => by
    have ha := a.isLt
    have hb := b.isLt
    have hc := c3.isLt
    simp only [EncodeToString, List.mem_cons] at h
    rcases h with h | h | h | h | h
    · exact h ▸ encodeStd_plain (by omega)
    · exact h ▸ encodeStd_plain (by omega)
    · exact h ▸ encodeStd_plain (by omega)
    · exact h ▸ encodeStd_plain (by omega)
    · exact EncodeToString_plain rest c h

theorem decodeQuanta_EncodeToString : ∀ data : Bytes, decodeQuanta (EncodeToString data) = some data
  | [] => by simp [EncodeToString, decodeQuanta]
  | [a] => by
    have ha := a.isLt
    have h1 : a.val / 4 < 64 := by omega
    have h2 : a.val % 4 * 16 < 64 := by omega
    simp only [EncodeToString, decodeQuanta, decodeStd_encodeStd h1, decodeStd_encodeStd h2,
      decodeStd_pad, and_self, if_true]
    congr 1
    congr 1
    exact toByte_val a _ (by omega)
  | [a, b] => by
    have ha := a.isLt
    have hb := b.isLt
    have h1 : a.val / 4 < 64 := by omega
    have h2 : a.val % 4 * 16 + b.val / 16 < 64 := by omega
    have h3 : b.val % 16 * 4 < 64 := by omega
    simp only [EncodeToString, decodeQuanta, decodeStd_encodeStd h1, decodeStd_encodeStd h2,
      decodeStd_encodeStd h3, decodeStd_pad, and_self, if_true]
    congr 1
    congr 1
    · exact toByte_val a _ (by omega)
    · congr 1
      exact toByte_val b _ (by omega)
  | a :: b :: c :: rest => by
    have ha := a.isLt
    have hb := b.isLt
    have hc := c.isLt
    have h1 : a.val / 4 < 64 := by omega
    have h2 : a.val % 4 * 16 + b.val / 16 < 64 := by omega
    have h3 : b.val % 16 * 4 + c.val / 64 < 64 := by omega
    have h4 : c.val % 64 < 64 := by omega
    simp only [EncodeToString, decodeQuanta, decodeStd_encodeStd h1, decodeStd_encodeStd h2,
      decodeStd_encodeStd h3, decodeStd_encodeStd h4, decodeQuanta_EncodeToString rest]
    congr 1
    congr 1
    · exact toByte_val a _ (by omega)
    · congr 1
      · exact toByte_val b _ (by omega)
      · congr 1
        exact toByte_val c _ (by omega)

theorem DecodeString_EncodeToString (data : Bytes) :
    DecodeString (EncodeToString data) = some data := by
  unfold DecodeString
  have hf : (EncodeToString data).filter
      (fun c => decide (c ≠ Char.ofNat 10 ∧ c ≠ Char.ofNat 13)) = EncodeToString data := by
    apply List.filter_eq_self.2
    intro c hc
    have := EncodeToString_plain data c hc
    simp [this.1, this.2]
  rw [hf]
  exact decodeQuanta_EncodeToString data

/-! ## Lemmas: the replication wire format -/

theorem replicateMessage_eq (filename : GoString) (i c : Int) (data : Bytes) :
    replicateMessage filename i c data =
      ['R', 'E', 'P', 'L', 'I', 'C', 'A', 'T', 'E'] ++ ':' :: (filename ++ ':' :: (itoa i ++ ':' ::
        (itoa c ++ ':' :: EncodeToString data))) := by
  simp [replicateMessage]

theorem parseReplicate_format (filename : GoString) (i c : Int) (data : Bytes)
    (hf : ':' ∉ filename) (hi0 : 0 ≤ i) (hi : i < 2 ^ 63) (hc0 : 0 ≤ c) (hc : c < 2 ^ 63) :
    parseReplicate (replicateMessage filename i c data) = some (filename, i, c, data) := by
  have hR : ':' ∉ ['R', 'E', 'P', 'L', 'I', 'C', 'A', 'T', 'E'] := by decide
  have hI : ':' ∉ itoa i := not_mem_itoa i (by decide) (by decide)
  have hC : ':' ∉ itoa c := not_mem_itoa c (by decide) (by decide)
  have hsplit := SplitN_five hR hf hI hC (EncodeToString data)
  unfold parseReplicate
  rw [replicateMessage_eq, hsplit]
  simp only [List.length_cons, List.length_nil, List.getD_cons_succ, List.getD_cons_zero]
  rw [Atoi_itoa (by omega) hi, Atoi_itoa (by omega) hc, DecodeString_EncodeToString]
  simp

/-! ## Lemmas: malformed numbers -/

theorem parseFrom_none (s : GoString) : ∀ acc : Nat, s.all isDigit = false → parseFrom acc s = none := by
  induction s with
  | nil => intro acc h; simp at h
  | cons c cs ih =>
    intro acc h
    rw [parseFrom]
    by_cases hc : isDigit c = true
    · rw [if_pos hc]
      apply ih
      simpa [List.all_cons, hc] using h
    · rw [if_neg hc]

theorem parseDigits_none (s : GoString) (h : (!s.isEmpty && s.all isDigit) = false) :
    parseDigits s = none := by
  unfold parseDigits
  cases s with
  | nil => rfl
  | cons c cs =>
    rw [if_neg (List.cons_ne_nil _ _)]
    apply parseFrom_none
    simpa using h

theorem Atoi_none_of_not_numeric (s : GoString) (h : numeric s = false) : Atoi s = none := by
  cases s with
  | nil => rfl
  | cons c cs =>
    unfold numeric at h
    unfold Atoi
    by_cases h1 : c = '-'
    · have hs : (c = '-' ∨ c = '+') := Or.inl h1
      simp only [hs, if_true] at h
      simp only [h1, if_true, parseDigits_none cs h]
    · by_cases h2 : c = '+'
      · have hs : (c = '-' ∨ c = '+') := Or.inr h2
        simp only [hs, if_true] at h
        simp only [h2, if_true, parseDigits_none cs h]
        split <;> rfl
      · have hs : ¬ (c = '-' ∨ c = '+') := fun e => e.elim h1 h2
        simp only [hs, if_false] at h
        have : parseDigits (c :: cs) = none := parseDigits_none (c :: cs) (by simpa using h)
        simp only [h1, h2, if_false, this]

/-! ## Lemmas: `SaveFile` and `GetFile` -/

theorem SaveFile_small (gm : Manager) (fs : FileStore) (filename : GoString) (data : Bytes)
    (hlen : data.length ≤ CHUNK_SIZE) (hw : fs.disk.writable (filePath filename) = true) :
    (SaveFile gm fs filename data).err = none ∧
    (SaveFile gm fs filename data).sent = [] ∧
    (SaveFile gm fs filename data).fs.files = mapSet fs.files filename data ∧
    (SaveFile gm fs filename data).fs.metadata = fs.metadata ∧
    (SaveFile gm fs filename data).fs.disk.objects =
      mapSet fs.disk.objects (filePath filename) data := by
  simp [SaveFile, hlen, WriteFile, hw]

theorem SaveFile_large (gm : Manager) (fs : FileStore) (filename : GoString) (data : Bytes)
    (hlen : CHUNK_SIZE < data.length) (hmk : fs.disk.mkdirOk = true)
    (hw : ∀ i, i < chunkCountOf data → fs.disk.writable (chunkPath filename (i : Nat)) = true) :
    (SaveFile gm fs filename data).err = none ∧
    (SaveFile gm fs filename data).fs.files = fs.files ∧
    (SaveFile gm fs filename data).fs.metadata =
      mapSet fs.metadata filename { IsChunked := true, ChunkCount := chunkCountOf data } ∧
    (∀ i, i < chunkCountOf data → (SaveFile gm fs filename data).fs.disk.objects
      (chunkPath filename (i : Nat)) = some (chunkAt data i)) ∧
    (∀ p, (∀ i, i < chunkCountOf data → p ≠ chunkPath filename (i : Nat)) →
      (SaveFile gm fs filename data).fs.disk.objects p = fs.disk.objects p) ∧
    (SaveFile gm fs filename data).fs.disk.writable = fs.disk.writable := by
  obtain ⟨h1, h2, h3, hwr, _, h6, h7⟩ := saveChunks_ok gm filename data (chunkCountOf data)
    (List.range (chunkCountOf data)) fs [] (fun i hi => hw i (List.mem_range.1 hi))
  have hnot : ¬ data.length ≤ CHUNK_SIZE := by omega
  unfold SaveFile
  rw [if_neg hnot]
  simp only [ensureDir, hmk, if_true, h1]
  refine ⟨trivial, h2, by rw [h3], ?_, ?_, hwr⟩
  · intro i hi
    exact h6 i (List.mem_range.2 hi)
  · intro q hq
    exact h7 q (fun i hi => hq i (List.mem_range.1 hi))

theorem GetFile_chunked (fs : FileStore) (filename : GoString) (n : Int)
    (hm : fs.metadata filename = some { IsChunked := true, ChunkCount := n }) :
    (GetFile fs filename).data = (readChunks fs.disk filename (List.range n.toNat) []).1 ∧
    (GetFile fs filename).err = (readChunks fs.disk filename (List.range n.toNat) []).2 := by
  simp [GetFile, hm]

theorem GetFile_cached (fs : FileStore) (filename : GoString) (data : Bytes)
    (hm : fs.metadata filename = none) (hf : fs.files filename = some data) :
    (GetFile fs filename).data = data ∧ (GetFile fs filename).err = none := by
  simp [GetFile, hm, hf]

theorem SaveFile_GetFile (gm : Manager) (fs : FileStore) (filename : GoString) (data : Bytes)
    (hmeta : fs.metadata filename = none) (hw : ∀ p, fs.disk.writable p = true)
    (hmk : fs.disk.mkdirOk = true) :
    (SaveFile gm fs filename data).err = none ∧
    (GetFile (SaveFile gm fs filename data).fs filename).err = none ∧
    (GetFile (SaveFile gm fs filename data).fs filename).data = data := by
  by_cases hlen : data.length ≤ CHUNK_SIZE
  · obtain ⟨h1, _, h3, h4, _⟩ := SaveFile_small gm fs filename data hlen (hw _)
    have hg := GetFile_cached (SaveFile gm fs filename data).fs filename data
      (by rw [h4]; exact hmeta) (by rw [h3]; exact mapSet_same _ _ _)
    exact ⟨h1, hg.2, hg.1⟩
  · obtain ⟨h1, _, h3, h4, _⟩ := SaveFile_large gm fs filename data (by omega) hmk
      (fun i _ => hw _)
    have hg := GetFile_chunked (SaveFile gm fs filename data).fs filename (chunkCountOf data)
      (by rw [h3]; exact mapSet_same _ _ _)
    have hread := readChunks_ok (SaveFile gm fs filename data).fs.disk filename (chunkAt data)
      (List.range (chunkCountOf data)) [] (fun i hi => h4 i (List.mem_range.1 hi))
    rw [Int.toNat_ofNat, hread] at hg
    refine ⟨h1, hg.2, ?_⟩
    rw [hg.1, List.nil_append, take_chunks]
    exact List.take_of_length_le (chunkCountOf_spec data).1

theorem readChunks_congr (d1 d2 : Disk) (filename : GoString) :
    ∀ (is : List Nat) (acc : Bytes),
      (∀ i ∈ is, d1.objects (chunkPath filename (i : Nat)) =
        d2.objects (chunkPath filename (i : Nat))) →
      readChunks d1 filename is acc = readChunks d2 filename is acc := by
  intro is
  induction is with
  | nil => intro acc _; rfl
  | cons i rest ih =>
    intro acc h
    rw [readChunks, readChunks]
    simp only [ReadFile, h i (List.mem_cons_self _ _)]
    cases d2.objects (chunkPath filename (i : Nat)) with
    | none => rfl
    | some c => exact ih _ (fun j hj => h j (List.mem_cons_of_mem _ hj))

theorem GetFile_stale (gm : Manager) (fs : FileStore) (filename : GoString) (n : Int)
    (data : Bytes) (hm : fs.metadata filename = some { IsChunked := true, ChunkCount := n })
    (hlen : data.length ≤ CHUNK_SIZE) (hw : fs.disk.writable (filePath filename) = true)
    (hpath : ∀ i : Nat, i < n.toNat → chunkPath filename (i : Nat) ≠ filePath filename) :
    (SaveFile gm fs filename data).err = none ∧
    (GetFile (SaveFile gm fs filename data).fs filename).data = (GetFile fs filename).data ∧
    (GetFile (SaveFile gm fs filename data).fs filename).err = (GetFile fs filename).err := by
  obtain ⟨h1, _, _, h4, h5⟩ := SaveFile_small gm fs filename data hlen hw
  have hg1 := GetFile_chunked fs filename n hm
  have hg2 := GetFile_chunked (SaveFile gm fs filename data).fs filename n (by rw [h4]; exact hm)
  have hc := readChunks_congr (SaveFile gm fs filename data).fs.disk fs.disk filename
    (List.range n.toNat) [] (by
      intro i hi
      rw [h5]
      exact mapSet_other _ _ _ _ (hpath i (List.mem_range.1 hi)))
  rw [hc] at hg2
  exact ⟨h1, by rw [hg2.1, hg1.1], by rw [hg2.2, hg1.2]⟩

/-- C1. Round trip of the file store: on a store with no metadata entry for
`filename` and a disk on which writes succeed, `SaveFile(filename, data)`
returns no error, and the following `GetFile(filename)` returns no error and
exactly `data`, whatever the length of `data`. -/
theorem C1_round_trip (gm : Manager) (fs : FileStore) (filename : GoString) (data : Bytes)
    (hmeta : fs.metadata filename = none) (hw : ∀ p, fs.disk.writable p = true)
    (hmk : fs.disk.mkdirOk = true) :
    (SaveFile gm fs filename data).err = none ∧
    (GetFile (SaveFile gm fs filename data).fs filename).err = none ∧
    (GetFile (SaveFile gm fs filename data).fs filename).data = data :=
  SaveFile_GetFile gm fs filename data hmeta hw hmk

/-- Witness of C1: a fresh store, a file of 1025 bytes. -/
theorem C1_round_trip_witness :
    (NewFileStore emptyDisk).metadata nameReport = none ∧
    (GetFile (SaveFile (NewManager addrLocal 0) (NewFileStore emptyDisk) nameReport
      (List.replicate 1025 7)).fs nameReport).data = List.replicate 1025 7 :=
  ⟨rfl, (C1_round_trip (NewManager addrLocal 0) (NewFileStore emptyDisk) nameReport
    (List.replicate 1025 7) rfl (fun _ => rfl) rfl).2.2⟩

/-- C5. Missing-file semantics of `GetFile`: a name with no metadata entry, no
cache entry and no object at `data/<filename>` gives the error
`file not found` and no bytes; a name whose metadata says chunked with count
`n`, with some chunk `i` (`0 ≤ i < n`) absent from the disk, gives the error
`file chunk not found` and no bytes. -/
theorem C5_missing_file :
    (∀ (fs : FileStore) (filename : GoString),
      fs.metadata filename = none → fs.files filename = none →
      fs.disk.objects (filePath filename) = none →
      (GetFile fs filename).err = some (.new "file not found") ∧
      (GetFile fs filename).data = []) ∧
    (∀ (fs : FileStore) (filename : GoString) (n i : Int),
      fs.metadata filename = some { IsChunked := true, ChunkCount := n } →
      0 ≤ i → i < n → fs.disk.objects (chunkPath filename i) = none →
      (GetFile fs filename).err = some (.new "file chunk not found") ∧
      (GetFile fs filename).data = []) := by
  constructor
  · intro fs filename hmeta hcache hdisk
    simp [GetFile, hmeta, hcache, ReadFile, hdisk]
  · intro fs filename n i hchunked hi0 hin hmiss
    have hg := GetFile_chunked fs filename n hchunked
    have hr := readChunks_missing fs.disk filename (List.range n.toNat) []
      ⟨i.toNat, List.mem_range.2 (by omega), by
        rw [Int.toNat_of_nonneg hi0]
        exact hmiss⟩
    rw [hr] at hg
    exact ⟨hg.2, hg.1⟩

/-- Witness of C5: the empty store, and a store whose metadata announces two
chunks of which only chunk 0 is on disk. -/
theorem C5_missing_file_witness :
    (GetFile (NewFileStore emptyDisk) nameReport).err = some (.new "file not found") ∧
    (GetFile (NewFileStore emptyDisk) nameReport).data = [] ∧
    (GetFile (SaveChunk (NewFileStore emptyDisk) nameReport 0 2 [1, 2]).2 nameReport).err
      = some (.new "file chunk not found") ∧
    (GetFile (SaveChunk (NewFileStore emptyDisk) nameReport 0 2 [1, 2]).2 nameReport).data = [] :=
  have h1 := C5_missing_file.1 (NewFileStore emptyDisk) nameReport rfl rfl rfl
  have h2 := C5_missing_file.2 (SaveChunk (NewFileStore emptyDisk) nameReport 0 2 [1, 2]).2
    nameReport 2 1 (by decide) (by decide) (by decide) (by decide)
  ⟨h1.1, h1.2, h2.1, h2.2⟩

/-- C9. Idempotent chunk replication: a second `SaveChunk` with the same
arguments leaves the store (disk, metadata table, cache) as the first call
left it, and returns what the first call returned. -/
theorem C9_SaveChunk_idempotent (fs : FileStore) (filename : GoString)
    (chunkIndex chunkCount : Int) (data : Bytes) :
    (SaveChunk (SaveChunk fs filename chunkIndex chunkCount data).2
        filename chunkIndex chunkCount data).2 =
      (SaveChunk fs filename chunkIndex chunkCount data).2 ∧
    (SaveChunk (SaveChunk fs filename chunkIndex chunkCount data).2
        filename chunkIndex chunkCount data).1 =
      (SaveChunk fs filename chunkIndex chunkCount data).1 := by
  unfold SaveChunk ensureDir WriteFile
  by_cases hmk : fs.disk.mkdirOk = true
  · by_cases hw : fs.disk.writable (chunkPath filename chunkIndex) = true
    · cases hm : fs.metadata filename with
      | none => simp [hmk, hw, hm, mapSet_idem, mapSet_same]
      | some m => simp [hmk, hw, hm, mapSet_idem]
    · simp [hmk, hw]
  · simp [hmk]

/-- C10, the failing input. A store that received chunk 0 of `report.txt`
(announced as one chunk, payload `[7]`) by `SaveChunk` keeps the chunked
metadata when `SaveFile` later stores the one-byte file `[1]` under the same
name: both calls succeed, and `GetFile` then returns `[7]`, not `[1]`. The
same happens after a chunked `SaveFile`: saving 1025 bytes and then one byte
gives back the 1025 bytes. -/
theorem C10_stale_metadata :
    (SaveChunk (NewFileStore emptyDisk) nameReport 0 1 [7]).1 = none ∧
    (SaveFile (NewManager addrLocal 0)
      (SaveChunk (NewFileStore emptyDisk) nameReport 0 1 [7]).2 nameReport [1]).err = none ∧
    (GetFile (SaveFile (NewManager addrLocal 0)
      (SaveChunk (NewFileStore emptyDisk) nameReport 0 1 [7]).2 nameReport [1]).fs
        nameReport).err = none ∧
    (GetFile (SaveFile (NewManager addrLocal 0)
      (SaveChunk (NewFileStore emptyDisk) nameReport 0 1 [7]).2 nameReport [1]).fs
        nameReport).data = [7] ∧
    (SaveFile (NewManager addrLocal 0) (NewFileStore emptyDisk) nameReport
      (List.replicate 1025 7)).err = none ∧
    (SaveFile (NewManager addrLocal 0)
      (SaveFile (NewManager addrLocal 0) (NewFileStore emptyDisk) nameReport
        (List.replicate 1025 7)).fs nameReport [1]).err = none ∧
    (GetFile (SaveFile (NewManager addrLocal 0)
      (SaveFile (NewManager addrLocal 0) (NewFileStore emptyDisk) nameReport
        (List.replicate 1025 7)).fs nameReport [1]).fs nameReport).data
      = List.replicate 1025 7 := by
  have hbig := SaveFile_GetFile (NewManager addrLocal 0) (NewFileStore emptyDisk) nameReport
    (List.replicate 1025 7) rfl (fun _ => rfl) rfl
  have hlen : CHUNK_SIZE < (List.replicate 1025 (7 : Byte)).length := by
    rw [List.length_replicate]
    decide
  have hcount : chunkCountOf (List.replicate 1025 (7 : Byte)) = 2 := by
    unfold chunkCountOf
    rw [List.length_replicate]
    rfl
  obtain ⟨_, _, h3, _, _, h6⟩ := SaveFile_large (NewManager addrLocal 0) (NewFileStore emptyDisk)
    nameReport (List.replicate 1025 7) hlen rfl (fun _ _ => rfl)
  have hstale := GetFile_stale (NewManager addrLocal 0)
    (SaveFile (NewManager addrLocal 0) (NewFileStore emptyDisk) nameReport
      (List.replicate 1025 7)).fs nameReport (2 : Nat) [1]
    (by rw [h3, ← hcount]; exact mapSet_same _ _ _) (by decide) (by rw [h6]; rfl)
    (by
      intro i hi
      have hi2 : i < 2 := by simpa using hi
      interval_cases i <;> decide)
  refine ⟨by decide, by decide, by decide, by decide, hbig.1, hstale.1, ?_⟩
  rw [hstale.2.1]
  exact hbig.2.2

/-- C6. Replication wire round trip: for a file name without `:` and a chunk
index and chunk count within the non-negative range of `int`, the message
built by `replicateChunk` splits into five fields, is parsed by the
replication handler into exactly the file name, index, count and bytes it was
built from, and the handler does what `SaveChunk` does on these arguments. -/
theorem C6_replication_round_trip (fs : FileStore) (filename : GoString)
    (chunkIndex chunkCount : Int) (data : Bytes) (hname : ':' ∉ filename)
    (hi0 : 0 ≤ chunkIndex) (hi : chunkIndex < 2 ^ 63)
    (hc0 : 0 ≤ chunkCount) (hc : chunkCount < 2 ^ 63) :
    (SplitN ':' 5 (replicateMessage filename chunkIndex chunkCount data)).length = 5 ∧
    parseReplicate (replicateMessage filename chunkIndex chunkCount data)
      = some (filename, chunkIndex, chunkCount, data) ∧
    ReplicationHandler fs (replicateMessage filename chunkIndex chunkCount data)
      = (SaveChunk fs filename chunkIndex chunkCount data).2 := by
  have hp := parseReplicate_format filename chunkIndex chunkCount data hname hi0 hi hc0 hc
  refine ⟨?_, hp, ?_⟩
  · rw [replicateMessage_eq, SplitN_five (by decide) hname
      (not_mem_itoa chunkIndex (by decide) (by decide))
      (not_mem_itoa chunkCount (by decide) (by decide))]
    rfl
  · unfold ReplicationHandler
    rw [hp]

/-- Witness of C6: chunk 2 of 4 of `report.txt`, four bytes. -/
theorem C6_replication_round_trip_witness :
    ':' ∉ nameReport ∧
    parseReplicate (replicateMessage nameReport 2 4 [104, 105, 0, 255])
      = some (nameReport, 2, 4, [104, 105, 0, 255]) :=
  ⟨by decide, (C6_replication_round_trip (NewFileStore emptyDisk) nameReport 2 4
    [104, 105, 0, 255] (by decide) (by decide) (by decide) (by decide) (by decide)).2.1⟩

/-- C7, counterexample. The sender `localhost:6000` gossips the one-element
peer list `[[::1]:6001]`; the address is non-empty and free of white space,
yet the handler does not recover it: stripping brackets also strips the
bracket that opens the address. -/
theorem C7_counterexample :
    '|' ∉ addrLocal ∧ Char.ofNat 10 ∉ addrLocal ∧ [addrV6] ≠ [] ∧
    (∀ w ∈ [addrV6], w ≠ [] ∧ ∀ c ∈ w, isSpace c = false) ∧
    parseGossip (gossipMessage addrLocal 1700000000 [addrV6]) ≠ some (addrLocal, [addrV6]) ∧
    parseGossip (gossipMessage addrLocal 1700000000 [addrV6])
      = some (addrLocal, ["::1]:6001".toList]) := by
  decide

/-- C7, amended. Gossip wire round trip: for a sender address without `|` and
a non-empty list of peer addresses, each non-empty and free of white space,
such that the first address does not begin with `[` or `]` and the last does
not end with `[` or `]`, the gossip handler recovers from the formatted
message the sender address and exactly the same list of peers, in order. -/
theorem C7_gossip_round_trip (self : GoString) (unix : Int) (peers : List GoString)
    (hself : '|' ∉ self) (hne : peers ≠ [])
    (hp : ∀ w ∈ peers, w ≠ [] ∧ ∀ c ∈ w, isSpace c = false)
    (hfirst : ∀ c, (peers.head hne).head? = some c → c ≠ '[' ∧ c ≠ ']')
    (hlast : ∀ c, (peers.getLast hne).getLast? = some c → c ≠ '[' ∧ c ≠ ']') :
    parseGossip (gossipMessage self unix peers) = some (self, peers) :=
  parseGossip_format self unix peers hself hne hp hfirst hlast

/-- Witness of C7 as amended: two peers in dotted-quad form. -/
theorem C7_gossip_round_trip_witness :
    '|' ∉ addrLocal ∧
    parseGossip (gossipMessage addrLocal 1700000000 [addrTwo, addrThree])
      = some (addrLocal, [addrTwo, addrThree]) :=
  ⟨by decide, C7_gossip_round_trip addrLocal 1700000000 [addrTwo, addrThree] (by decide)
    (by decide) (by decide) (by decide) (by decide)⟩

/-- C8. Malformed input tolerance: a gossip message with fewer than four
`|`-delimited fields leaves the membership manager as it was; a replication
message with fewer than five `:`-delimited fields, or whose chunk index or
chunk count is not numeric, or whose payload `DecodeString` rejects, leaves
the file store (metadata, cache, disk) as it was. Both handlers are total:
they return without raising anything. -/
theorem C8_malformed_dropped :
    (∀ (gm : Manager) (message : GoString) (tAdd tBeat : Time) (clock : Nat → Time),
      (SplitN '|' 4 message).length < 4 →
      GossipHandler gm message tAdd tBeat clock = gm) ∧
    (∀ (fs : FileStore) (message : GoString),
      ((SplitN ':' 5 message).length < 5 ∨
        numeric ((SplitN ':' 5 message).getD 2 []) = false ∨
        numeric ((SplitN ':' 5 message).getD 3 []) = false ∨
        DecodeString ((SplitN ':' 5 message).getD 4 []) = none) →
      ReplicationHandler fs message = fs) := by
  constructor
  · intro gm message tAdd tBeat clock hg
    simp [GossipHandler, parseGossip, hg]
  · intro fs message hr
    have hnone : parseReplicate message = none := by
      unfold parseReplicate
      by_cases hlen : (SplitN ':' 5 message).length ≠ 5
      · simp [hlen]
      · simp only [hlen, if_false]
        rcases hr with h | h | h | h
        · exact absurd h (by omega)
        · rw [Atoi_none_of_not_numeric _ h]
        · cases Atoi ((SplitN ':' 5 message).getD 2 []) with
          | none => rfl
          | some i =>
            simp only []
            rw [Atoi_none_of_not_numeric _ h]
        · cases Atoi ((SplitN ':' 5 message).getD 2 []) with
          | none => rfl
          | some i =>
            cases Atoi ((SplitN ':' 5 message).getD 3 []) with
            | none => rfl
            | some c =>
              simp only []
              rw [h]
    simp [ReplicationHandler, hnone]

/-- Witness of C8: a gossip message with two fields and a replication message
with three; also a replication message with a non-numeric index, and one with
an unpadded payload. -/
theorem C8_malformed_dropped_witness :
    (SplitN '|' 4 shortGossip).length = 2 ∧ (SplitN ':' 5 shortReplicate).length = 3 ∧
    GossipHandler (NewManager addrLocal 0) shortGossip 1 2 (fun _ => 3) = NewManager addrLocal 0 ∧
    ReplicationHandler (NewFileStore emptyDisk) shortReplicate = NewFileStore emptyDisk ∧
    ReplicationHandler (NewFileStore emptyDisk) badIndexReplicate = NewFileStore emptyDisk ∧
    ReplicationHandler (NewFileStore emptyDisk) badPayloadReplicate = NewFileStore emptyDisk :=
  ⟨by decide, by decide,
    C8_malformed_dropped.1 (NewManager addrLocal 0) shortGossip 1 2 (fun _ => 3) (by decide),
    C8_malformed_dropped.2 (NewFileStore emptyDisk) shortReplicate (Or.inl (by decide)),
    C8_malformed_dropped.2 (NewFileStore emptyDisk) badIndexReplicate
      (Or.inr (Or.inl (by decide))),
    C8_malformed_dropped.2 (NewFileStore emptyDisk) badPayloadReplicate
      (Or.inr (Or.inr (Or.inr (by decide))))⟩

/-- C3. Gossip merge: for addresses `A`, `B`, `C` that differ from the local
node's own, are non-empty and free of white space, `|`, `[` and `]`, after the
handler has processed `GOSSIP|A|<timestamp>|[B C]` the table has entries for
`A`, `B` and `C`; an address that was unknown before has a healthy entry; and
the entry of `A` is healthy with the heartbeat read by `UpdateNodeHeartbeat`
during processing, whatever its state before. -/
theorem C3_gossip_merge (gm : Manager) (A B C : GoString) (unix : Int) (tAdd tBeat : Time)
    (clock : Nat → Time) (hA : PlainAddress gm.self.Address A)
    (hB : PlainAddress gm.self.Address B) (hC : PlainAddress gm.self.Address C) :
    (∃ n, lookup A (GossipHandler gm (gossipMessage A unix [B, C]) tAdd tBeat clock).Nodes = some n
      ∧ n.Healthy = true ∧ n.LastHeartbeat = tBeat) ∧
    (∃ n, lookup B (GossipHandler gm (gossipMessage A unix [B, C]) tAdd tBeat clock).Nodes = some n
      ∧ (lookup B gm.Nodes = none → n.Healthy = true)) ∧
    (∃ n, lookup C (GossipHandler gm (gossipMessage A unix [B, C]) tAdd tBeat clock).Nodes = some n
      ∧ (lookup C gm.Nodes = none → n.Healthy = true)) := by
  have hparse : parseGossip (gossipMessage A unix [B, C]) = some (A, [B, C]) := by
    apply parseGossip_format A unix [B, C] _ (List.cons_ne_nil _ _)
    · intro w hw
      simp only [List.mem_cons, List.mem_singleton, List.not_mem_nil, or_false] at hw
      rcases hw with rfl | rfl
      · exact ⟨hB.2.1, fun c hc => (hB.2.2 c hc).1⟩
      · exact ⟨hC.2.1, fun c hc => (hC.2.2 c hc).1⟩
    · intro c hc
      have := hB.2.2 c (List.mem_of_mem_head? hc)
      exact ⟨this.2.2.1, this.2.2.2⟩
    · intro c hc
      have := hC.2.2 c (List.mem_of_getLast?_eq_some hc)
      exact ⟨this.2.2.1, this.2.2.2⟩
    · intro hm
      exact (hA.2.2 _ hm).2.1 rfl
  have hself : (UpdateNodeHeartbeat (AddNode gm A tAdd) A tBeat).self = gm.self := by
    rw [UpdateNodeHeartbeat_self, AddNode_self]
  have hH : GossipHandler gm (gossipMessage A unix [B, C]) tAdd tBeat clock =
      AddNode (AddNode (UpdateNodeHeartbeat (AddNode gm A tAdd) A tBeat) B (clock 0)) C (clock 1) := by
    unfold GossipHandler
    rw [hparse]
    exact addPeers_two clock _ B C ⟨hB.2.1, by rw [hself]; exact hB.1⟩
      ⟨hC.2.1, by rw [hself]; exact hC.1⟩
  rw [hH]
  exact gossip_merge_lookup gm A B C tAdd tBeat (clock 0) (clock 1) hA.1 hB.1 hC.1

/-- Witness of C3: a fresh manager at `localhost:6000` hears from
`10.0.0.2:6000`, which lists `10.0.0.3:6000` and itself. -/
theorem C3_gossip_merge_witness :
    PlainAddress addrLocal addrTwo ∧
    (∃ n, lookup addrTwo (GossipHandler (NewManager addrLocal 0)
        (gossipMessage addrTwo 1700000000 [addrThree, addrTwo]) 5 6 (fun _ => 7)).Nodes = some n
      ∧ n.Healthy = true ∧ n.LastHeartbeat = 6) :=
  ⟨by decide, (C3_gossip_merge (NewManager addrLocal 0) addrTwo addrThree addrTwo 1700000000 5 6
    (fun _ => 7) (by decide) (by decide) (by decide)).1⟩

/-- C4. Self-exclusion: after any sequence of `AddNode`,
`UpdateNodeHeartbeat`, `SetNodeUnhealthy` calls and gossip messages of
arbitrary text, starting from `NewManager(self)`, the table has no entry
under the node's own address: indexing it finds nothing, `GetNodes` and
`GetState` do not mention it, and `AddNode(self)` changes nothing. -/
theorem C4_self_exclusion (self : GoString) (t0 : Time) (ops : List Op) :
    SelfAddress (runOps (NewManager self t0) ops) = self ∧
    lookup self (runOps (NewManager self t0) ops).Nodes = none ∧
    self ∉ GetNodes (runOps (NewManager self t0) ops) ∧
    (∀ p ∈ GetState (runOps (NewManager self t0) ops), p.1 ≠ self) ∧
    (∀ t, AddNode (runOps (NewManager self t0) ops) self t = runOps (NewManager self t0) ops) := by
  have h0 : SelfExcluded self (NewManager self t0) := ⟨rfl, by simp [GetNodes, NewManager]⟩
  have h := SelfExcluded_runOps ops _ h0
  refine ⟨h.1, lookup_eq_none_of_not_mem _ _ h.2, h.2, ?_, ?_⟩
  · intro p hp e
    exact h.2 (by
      unfold GetNodes
      exact List.mem_map.2 ⟨p, hp, e⟩)
  · intro t
    unfold AddNode
    rw [if_neg]
    intro hc
    exact hc.2 h.1.symm

end DFS
